import Mathlib

/-!
Verification development for the ciwatch_mcp CI-failure triage engine.

The Python sources (ciwatch_mcp/fingerprint.py, normalize.py, classify.py,
assessment.py, test_history.py) are shallowly embedded below: pure functions
become Lean functions over `List Char` / `String`, Python floats used only as
stored constants or as ratios of small integers become `ℚ`, optional values
become `Option`, and the small regular expressions used by the code are
embedded as specialized deterministic scanners whose semantics coincide with
Python `re` on these particular patterns (each pattern's backtracking
collapses: this is argued in the doc comment of each scanner).
-/

namespace CIWatch

/-! ## Character classes (Python `re` classes, ASCII range as used by the logs) -/

/-- Python regex `\d` (ASCII). -/
def isDigitC (c : Char) : Bool := '0' ≤ c && c ≤ '9'

/-- Python regex `\w` (ASCII): letters, digits, underscore. -/
def isWordC (c : Char) : Bool :=
  ('a' ≤ c && c ≤ 'z') || ('A' ≤ c && c ≤ 'Z') || isDigitC c || c = '_'

/-- Lowercase hex digit, the class `[0-9a-f]` of the UUID pattern. -/
def isLowerHexC (c : Char) : Bool := isDigitC c || ('a' ≤ c && c ≤ 'f')

/-- The class `[0-9a-fA-F]` of the memory-address pattern. -/
def isHexC (c : Char) : Bool := isLowerHexC c || ('A' ≤ c && c ≤ 'F')

/-! ## fingerprint.py — NORMALIZATION_PATTERNS

Each pattern of `NORMALIZATION_PATTERNS` is embedded as a matcher
`List Char → Option (List Char)` that attempts the pattern at the head of the
list and returns the remaining suffix on success.  The two patterns guarded by
word boundaries (`\b\d+\.\d+\b` and `\b\d+\b`) additionally receive the flag
`prevW` telling whether the character before the current position is a word
character (`false` at the start of the string).

On these five patterns Python's backtracking is vacuous, so the matchers are
deterministic:
* counted classes (`[0-9a-f]{8}`, `\d{4}`, ...) consume an exact number of
  characters and the following literal (`-`, `:`, `[T ]`) is checked directly;
* in `0x[0-9a-fA-F]+`, `\d+\.\d+` and `\d+` each greedy `+` is followed either
  by nothing, by a word boundary, or by a literal outside its own class, so
  only the maximal run can succeed.
-/

/-- Consume exactly `n` characters satisfying `p` (counted repetition `p{n}`,
or a single literal/class character when `n = 1`). -/
def chompN (p : Char → Bool) : Nat → List Char → Option (List Char)
  | 0, s => some s
  | _ + 1, [] => none
  | n + 1, c :: s => if p c then chompN p n s else none

/-- A fixed-shape pattern: a sequence of counted character classes. -/
def chompSeq : List ((Char → Bool) × Nat) → List Char → Option (List Char)
  | [], s => some s
  | (p, n) :: specs, s => (chompN p n s).bind (chompSeq specs)

/-- The shape of `[0-9a-f]{8}-[0-9a-f]{4}-[0-9a-f]{4}-[0-9a-f]{4}-[0-9a-f]{12}`. -/
def uuidSpecs : List ((Char → Bool) × Nat) :=
  [(isLowerHexC, 8), (fun c => c = '-', 1), (isLowerHexC, 4), (fun c => c = '-', 1),
   (isLowerHexC, 4), (fun c => c = '-', 1), (isLowerHexC, 4), (fun c => c = '-', 1),
   (isLowerHexC, 12)]

/-- The UUID pattern at the head. -/
def matchUuidAt (s : List Char) : Option (List Char) := chompSeq uuidSpecs s

/-- The shape of `\d{4}-\d{2}-\d{2}[T ]\d{2}:\d{2}:\d{2}`. -/
def tsSpecs : List ((Char → Bool) × Nat) :=
  [(isDigitC, 4), (fun c => c = '-', 1), (isDigitC, 2), (fun c => c = '-', 1),
   (isDigitC, 2), (fun c => c = 'T' || c = ' ', 1), (isDigitC, 2),
   (fun c => c = ':', 1), (isDigitC, 2), (fun c => c = ':', 1), (isDigitC, 2)]

/-- The timestamp pattern at the head. -/
def matchTsAt (s : List Char) : Option (List Char) := chompSeq tsSpecs s

/-- `0x[0-9a-fA-F]+` at the head (greedy `+`, nothing follows it in the
pattern, so the maximal hex run is consumed). -/
def matchAddrAt : List Char → Option (List Char)
  | c0 :: c1 :: c2 :: t =>
      if c0 = '0' ∧ c1 = 'x' ∧ isHexC c2 then some ((c2 :: t).dropWhile isHexC)
      else none
  | _ => none

/-- `\b\d+\.\d+\b` at the head; `prevW` is whether the previous character is a
word character.  Both digit runs are maximal (a shorter run would be followed
by a digit, failing the `\.` literal resp. the trailing `\b`). -/
def matchFloatAt (prevW : Bool) (s : List Char) : Option (List Char) :=
  if prevW then none else
  let d1 := s.takeWhile isDigitC
  if d1.isEmpty then none else
  match s.drop d1.length with
  | c :: u =>
    if c = '.' then
      let d2 := u.takeWhile isDigitC
      if d2.isEmpty then none else
      match u.drop d2.length with
      | [] => some []
      | c2 :: t2 => if isWordC c2 then none else some (c2 :: t2)
    else none
  | [] => none

/-- `\b\d+\b` at the head; `prevW` as in `matchFloatAt`. -/
def matchIntAt (prevW : Bool) (s : List Char) : Option (List Char) :=
  if prevW then none else
  let d := s.takeWhile isDigitC
  if d.isEmpty then none else
  match s.drop d.length with
  | [] => some []
  | c :: t => if isWordC c then none else some (c :: t)

/-- `re.sub` loop for a context-free pattern: scan left to right, replacing
every match of `m` by `repl` and resuming after the matched text.  The `Nat`
argument counts characters of a match still to be skipped (this keeps the
recursion structural on the list). -/
def scanSubAux (m : List Char → Option (List Char)) (repl : List Char) :
    List Char → Nat → List Char
  | [], _ => []
  | _ :: t, k + 1 => scanSubAux m repl t k
  | c :: t, 0 =>
    match m (c :: t) with
    | some rest => repl ++ scanSubAux m repl t (t.length - rest.length)
    | none => c :: scanSubAux m repl t 0

def scanSub (m : List Char → Option (List Char)) (repl : List Char)
    (s : List Char) : List Char :=
  scanSubAux m repl s 0

/-- `re.sub` loop for the two boundary-guarded patterns: as `scanSubAux` but
threading the previous-character-is-a-word-character flag.  After a
replacement the flag is `true` because every match of `\b\d+\b` and of
`\b\d+\.\d+\b` ends in a digit. -/
def scanSubPAux (m : Bool → List Char → Option (List Char)) (repl : List Char) :
    Bool → List Char → Nat → List Char
  | _, [], _ => []
  | _, _ :: t, k + 1 => scanSubPAux m repl true t k
  | b, c :: t, 0 =>
    match m b (c :: t) with
    | some rest => repl ++ scanSubPAux m repl true t (t.length - rest.length)
    | none => c :: scanSubPAux m repl (isWordC c) t 0

def scanSubP (m : Bool → List Char → Option (List Char)) (repl : List Char)
    (b : Bool) (s : List Char) : List Char :=
  scanSubPAux m repl b s 0

def uuidRepl : List Char := ['<', 'U', 'U', 'I', 'D', '>']
def tsRepl : List Char := ['<', 'T', 'I', 'M', 'E', 'S', 'T', 'A', 'M', 'P', '>']
def addrRepl : List Char := ['<', 'A', 'D', 'D', 'R', '>']
def numRepl : List Char := ['<', 'N', 'U', 'M', '>']

def subUuid (s : List Char) : List Char := scanSub matchUuidAt uuidRepl s
def subTs (s : List Char) : List Char := scanSub matchTsAt tsRepl s
def subAddr (s : List Char) : List Char := scanSub matchAddrAt addrRepl s
def subFloat (b : Bool) (s : List Char) : List Char := scanSubP matchFloatAt numRepl b s
def subInt (b : Bool) (s : List Char) : List Char := scanSubP matchIntAt numRepl b s

/-- `normalize_failure_fingerprint` on character lists: the five substitutions
of `NORMALIZATION_PATTERNS` applied in order (UUID, timestamp, address, float,
integer).  The initial `false` flag encodes that there is no character before
position 0. -/
def normalizeFingerprintL (s : List Char) : List Char :=
  subInt false (subFloat false (subAddr (subTs (subUuid s))))

/-- fingerprint.py `normalize_failure_fingerprint`. -/
def normalize_failure_fingerprint (s : String) : String :=
  ⟨normalizeFingerprintL s.data⟩

/-- C8: the two concrete normalizations stated by the spec. -/
theorem c8_normalization_values :
    normalize_failure_fingerprint "AssertionError: accuracy too low: 0.590 < 0.620" =
      "AssertionError: accuracy too low: <NUM> < <NUM>" ∧
    normalize_failure_fingerprint "Object at 0x7f8a3c failed at 2024-01-22T10:30:45 with code 42" =
      "Object at <ADDR> failed at <TIMESTAMP> with code <NUM>" := by
  constructor <;> rfl

/-! ## test_history.py — ResourceBudget

`ResourceBudget.can_fetch_log` mutates the budget (flag + warning list) and
returns a `bool`; it is embedded as a state-passing function returning the
pair.  Sizes are byte counts, hence `Nat`.
-/

structure ResourceBudget where
  max_jobs_per_build : Nat := 20
  max_log_bytes : Nat := 200000
  total_log_bytes : Nat := 0
  exhausted : Bool := false
  warnings : List String := []
deriving DecidableEq

/-- The f-string `f"Log budget exhausted: {total_log_bytes}/{max_log_bytes} bytes"`. -/
def budgetWarning (b : ResourceBudget) : String :=
  "Log budget exhausted: " ++ toString b.total_log_bytes ++ "/" ++
    toString b.max_log_bytes ++ " bytes"

/-- `ResourceBudget.can_fetch_log`: returns the boolean result and the
updated budget. -/
def can_fetch_log (b : ResourceBudget) (estimated_size : Nat) :
    Bool × ResourceBudget :=
  if b.max_log_bytes < b.total_log_bytes + estimated_size then
    (false,
      if b.exhausted then b
      else { b with warnings := b.warnings ++ [budgetWarning b], exhausted := true })
  else (true, b)

/-- `ResourceBudget.record_log_fetch`. -/
def record_log_fetch (b : ResourceBudget) (actual_size : Nat) : ResourceBudget :=
  { b with total_log_bytes := b.total_log_bytes + actual_size }

/-- One call against the budget during an invocation. -/
inductive BudgetOp
  | canFetch (est : Nat)
  | record (n : Nat)

/-- Run a sequence of budget calls, threading the state. -/
def runBudget (b : ResourceBudget) : List BudgetOp → ResourceBudget
  | [] => b
  | BudgetOp.canFetch e :: ops => runBudget (can_fetch_log b e).2 ops
  | BudgetOp.record n :: ops => runBudget (record_log_fetch b n) ops

/-- A freshly constructed `ResourceBudget(max_jobs_per_build, max_log_bytes)`. -/
def initBudget (mj mb : Nat) : ResourceBudget :=
  { max_jobs_per_build := mj, max_log_bytes := mb }

theorem can_fetch_log_max (b : ResourceBudget) (e : Nat) :
    (can_fetch_log b e).2.max_log_bytes = b.max_log_bytes := by
  unfold can_fetch_log
  split <;> [skip; rfl]
  split <;> rfl

theorem can_fetch_log_total (b : ResourceBudget) (e : Nat) :
    (can_fetch_log b e).2.total_log_bytes = b.total_log_bytes := by
  unfold can_fetch_log
  split <;> [skip; rfl]
  split <;> rfl

theorem runBudget_max (b : ResourceBudget) (ops : List BudgetOp) :
    (runBudget b ops).max_log_bytes = b.max_log_bytes := by
  induction ops generalizing b with
  | nil => rfl
  | cons op ops ih =>
    cases op with
    | canFetch e => rw [runBudget, ih, can_fetch_log_max]
    | record n => rw [runBudget, ih]; rfl

theorem runBudget_total_mono (b : ResourceBudget) (ops : List BudgetOp) :
    b.total_log_bytes ≤ (runBudget b ops).total_log_bytes := by
  induction ops generalizing b with
  | nil => exact Nat.le_refl _
  | cons op ops ih =>
    cases op with
    | canFetch e =>
      rw [runBudget]
      exact le_trans (le_of_eq (can_fetch_log_total b e).symm) (ih _)
    | record n =>
      rw [runBudget]
      exact le_trans (Nat.le_add_right _ _) (ih (record_log_fetch b n))

/-- Warning-list invariant maintained by every budget operation. -/
def budgetWInv (b : ResourceBudget) : Prop :=
  b.warnings.length ≤ 1 ∧ (b.exhausted = false → b.warnings = [])

theorem budgetWInv_can_fetch (b : ResourceBudget) (e : Nat) (h : budgetWInv b) :
    budgetWInv (can_fetch_log b e).2 := by
  obtain ⟨h1, h2⟩ := h
  unfold can_fetch_log
  split
  · cases hex : b.exhausted with
    | true => simpa [hex] using ⟨h1, h2⟩
    | false =>
      have hw : b.warnings = [] := h2 hex
      simp [hex, budgetWInv, hw]
  · exact ⟨h1, h2⟩

theorem budgetWInv_run (b : ResourceBudget) (ops : List BudgetOp)
    (h : budgetWInv b) : budgetWInv (runBudget b ops) := by
  induction ops generalizing b with
  | nil => exact h
  | cons op ops ih =>
    cases op with
    | canFetch e => exact ih _ (budgetWInv_can_fetch b e h)
    | record n => exact ih _ ⟨h.1, h.2⟩

/-- The concrete budget of the spec scenario: `ResourceBudget(max_log_bytes=1000)`. -/
def c2Budget : ResourceBudget := initBudget 5 1000

/-- State after granting 500 and 400 and recording both fetches. -/
def c2AfterRecords : ResourceBudget :=
  record_log_fetch (record_log_fetch (can_fetch_log
    ((can_fetch_log c2Budget 500).2) 400).2 500) 400

/-- State after the first denied request of 200. -/
def c2AfterDenial : ResourceBudget := (can_fetch_log c2AfterRecords 200).2

/-- C2 (amended): the first denial sets `exhausted` and appends exactly one
warning of the form `"Log budget exhausted: <used>/<max> bytes"`; a later
denial appends nothing; along any call sequence at most one warning ever
exists; and a denial is permanent for any same-or-larger estimated size
(the code re-checks `total + estimated > max` on every call, and the total
never decreases).  The concrete 500/400/200/200 scenario of the spec holds. -/
theorem c2_budget_first_exhaustion :
    (∀ (b : ResourceBudget) (est : Nat), b.exhausted = false →
      (can_fetch_log b est).1 = false →
        (can_fetch_log b est).2.exhausted = true ∧
        (can_fetch_log b est).2.warnings = b.warnings ++ [budgetWarning b]) ∧
    (∀ (b : ResourceBudget) (est : Nat), b.exhausted = true →
      (can_fetch_log b est).2.warnings = b.warnings) ∧
    (∀ (mj mb : Nat) (ops : List BudgetOp),
      (runBudget (initBudget mj mb) ops).warnings.length ≤ 1) ∧
    (∀ (b : ResourceBudget) (ops : List BudgetOp) (est est2 : Nat),
      (can_fetch_log b est).1 = false → est ≤ est2 →
      (can_fetch_log (runBudget b ops) est2).1 = false) ∧
    ((can_fetch_log c2Budget 500).1 = true ∧
     (can_fetch_log (can_fetch_log c2Budget 500).2 400).1 = true ∧
     (can_fetch_log c2AfterRecords 200).1 = false ∧
     c2AfterDenial.exhausted = true ∧
     c2AfterDenial.warnings = ["Log budget exhausted: 900/1000 bytes"] ∧
     (can_fetch_log c2AfterDenial 200).1 = false ∧
     (can_fetch_log c2AfterDenial 200).2.warnings = c2AfterDenial.warnings) := by
  refine ⟨?_, ?_, ?_, ?_, ?_⟩
  · intro b est hex hden
    by_cases hc : b.max_log_bytes < b.total_log_bytes + est
    · unfold can_fetch_log
      rw [if_pos hc]
      simp [hex]
    · unfold can_fetch_log at hden
      rw [if_neg hc] at hden
      simp at hden
  · intro b est hex
    by_cases hc : b.max_log_bytes < b.total_log_bytes + est
    · unfold can_fetch_log
      rw [if_pos hc]
      simp [hex]
    · unfold can_fetch_log
      rw [if_neg hc]
  · intro mj mb ops
    exact (budgetWInv_run _ ops ⟨by simp [initBudget], fun _ => rfl⟩).1
  · intro b ops est est2 hden hle
    have hmax : (runBudget b ops).max_log_bytes = b.max_log_bytes := runBudget_max b ops
    have htot : b.total_log_bytes ≤ (runBudget b ops).total_log_bytes :=
      runBudget_total_mono b ops
    have hden2 : b.max_log_bytes < b.total_log_bytes + est := by
      by_contra hc
      unfold can_fetch_log at hden
      rw [if_neg hc] at hden
      simp at hden
    unfold can_fetch_log
    rw [if_pos (by omega)]
  · refine ⟨by decide, by decide, by decide, by decide, by decide, by decide, by decide⟩

/-- Witness for C2: the universally quantified parts applied at the concrete
scenario state. -/
theorem c2_budget_first_exhaustion_witness :
    (can_fetch_log c2AfterRecords 200).1 = false ∧
    (can_fetch_log c2AfterRecords 200).2.exhausted = true ∧
    (can_fetch_log c2AfterRecords 200).2.warnings =
      c2AfterRecords.warnings ++ [budgetWarning c2AfterRecords] ∧
    (can_fetch_log (runBudget c2AfterDenial [BudgetOp.record 10]) 200).1 = false := by
  have h := c2_budget_first_exhaustion
  refine ⟨by decide, ?_, ?_, ?_⟩
  · exact (h.1 c2AfterRecords 200 (by decide) (by decide)).1
  · exact (h.1 c2AfterRecords 200 (by decide) (by decide)).2
  · exact h.2.2.2.1 c2AfterDenial [BudgetOp.record 10] 200 200 (by decide) (le_refl _)

/-- C2 counterexample: the claim "once exhausted, every subsequent
`can_fetch_log` call (for any estimated size) returns false" fails: after the
denial that exhausts the budget (used 900 of 1000), a request with estimated
size 50 still fits and returns true, because the code only re-checks
`total_log_bytes + estimated_size > max_log_bytes` and never consults the
`exhausted` flag. -/
theorem c2_counterexample :
    c2AfterDenial.exhausted = true ∧ (can_fetch_log c2AfterDenial 50).1 = true := by
  constructor <;> decide

/-! ## classify.py — deduplicate_failures -/

/-- models.py `TestFailure`. -/
structure TestFailure where
  test_name : String
  job_name : String
  error_message : Option String := none
  stack_trace : Option String := none
  log_snippet : Option String := none
deriving DecidableEq

/-- models.py `FailureClassification` (confidence is a stored constant,
embedded as `ℚ`). -/
structure FailureClassification where
  failure_key : String
  test_failure : TestFailure
  category : String
  github_issue : Option String := none
  confidence : ℚ
  reason : String
  owner : Option String := none
  owner_confidence : Option ℚ := none
deriving DecidableEq

/-- `deduplicate_failures` loop, with the `seen_keys` set modelled as the
list of keys already kept. -/
def dedupAux (seen : List String) : List FailureClassification → List FailureClassification
  | [] => []
  | f :: fs =>
    if f.failure_key ∈ seen then dedupAux seen fs
    else f :: dedupAux (f.failure_key :: seen) fs

/-- classify.py `deduplicate_failures`. -/
def deduplicate_failures (failures : List FailureClassification) :
    List FailureClassification :=
  dedupAux [] failures

theorem dedupAux_sublist (seen : List String) (l : List FailureClassification) :
    (dedupAux seen l).Sublist l := by
  induction l generalizing seen with
  | nil => simp [dedupAux]
  | cons f fs ih =>
    rw [dedupAux]
    split
    · exact (ih seen).cons f
    · exact (ih _).cons₂ f

theorem dedupAux_keys (seen : List String) (l : List FailureClassification) :
    ((dedupAux seen l).map FailureClassification.failure_key).Nodup ∧
    ∀ k ∈ (dedupAux seen l).map FailureClassification.failure_key, k ∉ seen := by
  induction l generalizing seen with
  | nil => simp [dedupAux]
  | cons f fs ih =>
    rw [dedupAux]
    split
    · exact ih seen
    · next hni =>
      obtain ⟨h1, h2⟩ := ih (f.failure_key :: seen)
      refine ⟨?_, ?_⟩
      · simp only [List.map_cons, List.nodup_cons]
        exact ⟨fun hmem => (h2 _ hmem) (List.mem_cons_self _ _), h1⟩
      · intro k hk
        simp only [List.map_cons, List.mem_cons] at hk
        rcases hk with rfl | hk
        · exact hni
        · exact fun hs => (h2 k hk) (List.mem_cons_of_mem _ hs)

theorem dedupAux_keeps_first (seen : List String) (l : List FailureClassification)
    (i : Nat) (hi : i < l.length)
    (hseen : (l.get ⟨i, hi⟩).failure_key ∉ seen)
    (hfirst : ∀ g ∈ l.take i, g.failure_key ≠ (l.get ⟨i, hi⟩).failure_key) :
    l.get ⟨i, hi⟩ ∈ dedupAux seen l := by
  induction l generalizing seen i with
  | nil => exact absurd hi (by simp)
  | cons f fs ih =>
    rw [dedupAux]
    cases i with
    | zero =>
      simp only [List.get] at hseen ⊢
      split
      · exact absurd (by assumption) hseen
      · exact List.mem_cons_self _ _
    | succ j =>
      have hj : j < fs.length := Nat.lt_of_succ_lt_succ hi
      have hget : (f :: fs).get ⟨j + 1, hi⟩ = fs.get ⟨j, hj⟩ := rfl
      rw [hget] at hseen hfirst ⊢
      have hfirstTail : ∀ g ∈ fs.take j, g.failure_key ≠ (fs.get ⟨j, hj⟩).failure_key := by
        intro g hg
        exact hfirst g (by simp [List.take_succ_cons, List.mem_cons]; right; exact hg)
      have hfhead : f.failure_key ≠ (fs.get ⟨j, hj⟩).failure_key := by
        have := hfirst f (by simp [List.take_succ_cons])
        exact this
      split
      · exact ih seen j hj hseen hfirstTail
      · refine List.mem_cons_of_mem _ (ih _ j hj ?_ hfirstTail)
        intro hmem
        rcases List.mem_cons.mp hmem with heq | hmem2
        · exact hfhead heq.symm
        · exact hseen hmem2

def c6fail (k : String) : FailureClassification :=
  { failure_key := k,
    test_failure := { test_name := "t", job_name := "j" },
    category := "NEW_REGRESSION", confidence := 1/2, reason := "r" }

def c6fail2 (k : String) : FailureClassification :=
  { failure_key := k,
    test_failure := { test_name := "t2", job_name := "j2" },
    category := "NEW_REGRESSION", confidence := 1/2, reason := "r2" }

/-- C6: the output of `deduplicate_failures` has pairwise distinct
`failure_key`s, is a sublist (subsequence, order preserved) of the input, and
contains every input element none of whose predecessors shares its key — i.e.
it is exactly the first-occurrence subsequence.  The concrete `(k1, k1, k2)`
input dedups to the first `k1` element followed by the `k2` element. -/
theorem c6_dedup_first_occurrence :
    (∀ l : List FailureClassification,
      ((deduplicate_failures l).map FailureClassification.failure_key).Nodup) ∧
    (∀ l : List FailureClassification, (deduplicate_failures l).Sublist l) ∧
    (∀ (l : List FailureClassification) (i : Nat) (hi : i < l.length),
      (∀ g ∈ l.take i, g.failure_key ≠ (l.get ⟨i, hi⟩).failure_key) →
      l.get ⟨i, hi⟩ ∈ deduplicate_failures l) ∧
    deduplicate_failures [c6fail "k1", c6fail2 "k1", c6fail "k2"] =
      [c6fail "k1", c6fail "k2"] := by
  refine ⟨fun l => (dedupAux_keys [] l).1, fun l => dedupAux_sublist [] l,
    fun l i hi hfirst => dedupAux_keeps_first [] l i hi (by simp) hfirst, rfl⟩

/-- Witness for C6: the first-occurrence membership applied at the concrete
`(k1, k1, k2)` input. -/
theorem c6_dedup_first_occurrence_witness :
    ([c6fail "k1", c6fail2 "k1", c6fail "k2"].get ⟨0, by decide⟩) ∈
      deduplicate_failures [c6fail "k1", c6fail2 "k1", c6fail "k2"] := by
  exact c6_dedup_first_occurrence.2.2.1 _ 0 (by decide)
    (fun g hg => absurd hg (List.not_mem_nil g))

/-! ## normalize.py — generate_failure_key

The key is `hashlib.sha256(key_string.encode()).hexdigest()[:16]`.  SHA-256
(FIPS 180-4) is implemented below over `Nat` with explicit reduction modulo
`2^32`; `str.encode()` is UTF-8.
-/

/-- Reduce modulo `2^32`. -/
def w32 (n : Nat) : Nat := n % 4294967296

/-- 32-bit bitwise complement. -/
def not32 (x : Nat) : Nat := x ^^^ 4294967295

/-- 32-bit right rotation. -/
def rotr32 (n x : Nat) : Nat := w32 ((x >>> n) ||| (x <<< (32 - n)))

def shaCh (x y z : Nat) : Nat := (x &&& y) ^^^ (not32 x &&& z)
def shaMaj (x y z : Nat) : Nat := (x &&& y) ^^^ (x &&& z) ^^^ (y &&& z)
def bsig0 (x : Nat) : Nat := rotr32 2 x ^^^ rotr32 13 x ^^^ rotr32 22 x
def bsig1 (x : Nat) : Nat := rotr32 6 x ^^^ rotr32 11 x ^^^ rotr32 25 x
def ssig0 (x : Nat) : Nat := rotr32 7 x ^^^ rotr32 18 x ^^^ (x >>> 3)
def ssig1 (x : Nat) : Nat := rotr32 17 x ^^^ rotr32 19 x ^^^ (x >>> 10)

def sha256K : List Nat :=
  [1116352408, 1899447441, 3049323471, 3921009573, 961987163, 1508970993,
   2453635748, 2870763221, 3624381080, 310598401, 607225278, 1426881987,
   1925078388, 2162078206, 2614888103, 3248222580, 3835390401, 4022224774,
   264347078, 604807628, 770255983, 1249150122, 1555081692, 1996064986,
   2554220882, 2821834349, 2952996808, 3210313671, 3336571891, 3584528711,
   113926993, 338241895, 666307205, 773529912, 1294757372, 1396182291,
   1695183700, 1986661051, 2177026350, 2456956037, 2730485921, 2820302411,
   3259730800, 3345764771, 3516065817, 3600352804, 4094571909, 275423344,
   430227734, 506948616, 659060556, 883997877, 958139571, 1322822218,
   1537002063, 1747873779, 1955562222, 2024104815, 2227730452, 2361852424,
   2428436474, 2756734187, 3204031479, 3329325298]

def sha256H0 : List Nat :=
  [1779033703, 3144134277, 1013904242, 2773480762,
   1359893119, 2600822924, 528734635, 1541459225]

/-- Big-endian 8-byte encoding. -/
def be64 (n : Nat) : List Nat :=
  [(n >>> 56) &&& 255, (n >>> 48) &&& 255, (n >>> 40) &&& 255, (n >>> 32) &&& 255,
   (n >>> 24) &&& 255, (n >>> 16) &&& 255, (n >>> 8) &&& 255, n &&& 255]

/-- Big-endian 4-byte encoding. -/
def be32 (n : Nat) : List Nat :=
  [(n >>> 24) &&& 255, (n >>> 16) &&& 255, (n >>> 8) &&& 255, n &&& 255]

/-- SHA-256 padding: `0x80`, zeros to 56 mod 64, then the bit length. -/
def shaPad (msg : List Nat) : List Nat :=
  msg ++ [128] ++ List.replicate ((64 + 55 - msg.length % 64) % 64) 0 ++
    be64 (8 * msg.length)

/-- Split into 64-byte blocks (the first argument is fuel, always the list
length, keeping the recursion structural). -/
def chunk64Aux : Nat → List Nat → List (List Nat)
  | 0, _ => []
  | fuel + 1, l => if l.isEmpty then [] else l.take 64 :: chunk64Aux fuel (l.drop 64)

def chunk64 (l : List Nat) : List (List Nat) := chunk64Aux l.length l

/-- Group bytes into big-endian 32-bit words. -/
def bytesToWords : List Nat → List Nat
  | a :: b :: c :: d :: rest => (a * 16777216 + b * 65536 + c * 256 + d) :: bytesToWords rest
  | _ => []

/-- Extend the 16 block words to 64 schedule words. -/
def extendW : Nat → List Nat → List Nat
  | 0, acc => acc
  | n + 1, acc =>
    let l := acc.length
    let wt := w32 (ssig1 (acc.getD (l - 2) 0) + acc.getD (l - 7) 0 +
                   ssig0 (acc.getD (l - 15) 0) + acc.getD (l - 16) 0)
    extendW n (acc ++ [wt])

/-- The 64 compression rounds. -/
def shaRounds : List (Nat × Nat) → List Nat → List Nat
  | [], st => st
  | (k, wt) :: rest, [a, b, c, d, e, f, g, h] =>
    let t1 := w32 (h + bsig1 e + shaCh e f g + k + wt)
    let t2 := w32 (bsig0 a + shaMaj a b c)
    shaRounds rest [w32 (t1 + t2), a, b, c, w32 (d + t1), e, f, g]
  | _ :: _, st => st

/-- Process one 64-byte block. -/
def shaBlock (h : List Nat) (block : List Nat) : List Nat :=
  let w := extendW 48 (bytesToWords block)
  let st := shaRounds (sha256K.zip w) h
  List.zipWith (fun x y => w32 (x + y)) h st

/-- SHA-256 digest (32 bytes) of a byte sequence. -/
def sha256 (msg : List Nat) : List Nat :=
  ((chunk64 (shaPad msg)).foldl shaBlock sha256H0).foldr
    (fun wd acc => be32 wd ++ acc) []

def hexDigitChar (n : Nat) : Char :=
  if n < 10 then Char.ofNat (48 + n) else Char.ofNat (87 + n)

/-- Lowercase hex string of a byte sequence (`hexdigest`). -/
def hexOfBytes (bytes : List Nat) : String :=
  ⟨bytes.foldr (fun b acc => hexDigitChar (b / 16) :: hexDigitChar (b % 16) :: acc) []⟩

/-- UTF-8 encoding of one character (`str.encode()`; `Char` excludes
surrogates, so this matches CPython). -/
def charUtf8 (c : Char) : List Nat :=
  let n := c.toNat
  if n < 128 then [n]
  else if n < 2048 then [192 + n / 64, 128 + n % 64]
  else if n < 65536 then [224 + n / 4096, 128 + (n / 64) % 64, 128 + n % 64]
  else [240 + n / 262144, 128 + (n / 4096) % 64, 128 + (n / 64) % 64, 128 + n % 64]

def utf8Bytes (s : String) : List Nat :=
  s.data.foldr (fun c acc => charUtf8 c ++ acc) []

/-- FIPS 180-4 test vector, checking the SHA-256 embedding. -/
theorem sha256_abc :
    hexOfBytes (sha256 (utf8Bytes "abc")) =
      "ba7816bf8f01cfea414140de5dae2223b00361a396177a9cb410ff61f20015ad" := by
  rfl

/-- `str.lower()` (ASCII case mapping, which covers the job names used). -/
def pyLower (s : String) : String := ⟨s.data.map Char.toLower⟩

/-- `str.replace(" ", "_")`. -/
def pyReplaceSpace (s : String) : String :=
  ⟨s.data.map (fun c => if c = ' ' then '_' else c)⟩

/-- `s.split("\n")[0]`. -/
def firstLine (s : String) : String := ⟨s.data.takeWhile (fun c => c ≠ '\n')⟩

/-- Python slice `s[:n]`. -/
def pyTake (n : Nat) (s : String) : String := ⟨s.data.take n⟩

/-- The `components` list of `generate_failure_key`: normalized job name, test
name, and — only when `error_message` is truthy — the first line of the error
message truncated to 100 characters. -/
def keyComponents (f : TestFailure) : List String :=
  [pyReplaceSpace (pyLower f.job_name), f.test_name] ++
    (match f.error_message with
     | some e => if e = "" then [] else [pyTake 100 (firstLine e)]
     | none => [])

/-- normalize.py `generate_failure_key`. -/
def generate_failure_key (f : TestFailure) : String :=
  pyTake 16 (hexOfBytes (sha256 (utf8Bytes (String.intercalate "::" (keyComponents f)))))

/-- The key string written out as the spec describes it:
`<lowercased-space-underscored job_name>::<test_name>[::<first line of
error_message truncated to 100 chars>]`, the third field omitted when the
error message is missing or empty. -/
def specKeyString (f : TestFailure) : String :=
  pyReplaceSpace (pyLower f.job_name) ++ "::" ++ f.test_name ++
    (match f.error_message with
     | some e => if e = "" then "" else "::" ++ pyTake 100 (firstLine e)
     | none => "")

theorem intercalate_components (f : TestFailure) :
    String.intercalate "::" (keyComponents f) = specKeyString f := by
  unfold keyComponents specKeyString
  cases f.error_message with
  | none =>
    apply String.ext
    simp [String.intercalate, String.intercalate.go, String.data_append]
  | some e =>
    by_cases he : e = "" <;>
    · apply String.ext
      simp [he, String.intercalate, String.intercalate.go, String.data_append]

/-- C5: `generate_failure_key` is a pure function of the components
(normalized job name, test name, optional truncated first error line): equal
components give equal keys; and the key is the first 16 hex characters of the
SHA-256 of the components joined by `"::"`. -/
theorem c5_failure_key_deterministic :
    (∀ f1 f2 : TestFailure, keyComponents f1 = keyComponents f2 →
      generate_failure_key f1 = generate_failure_key f2) ∧
    (∀ f : TestFailure,
      generate_failure_key f =
        pyTake 16 (hexOfBytes (sha256 (utf8Bytes (specKeyString f))))) := by
  constructor
  · intro f1 f2 h
    unfold generate_failure_key
    rw [h]
  · intro f
    unfold generate_failure_key
    rw [intercalate_components]

/-- Witness for C5: two `TestFailure`s differing only in `stack_trace` and
`log_snippet` have equal components, hence equal keys. -/
theorem c5_failure_key_deterministic_witness :
    generate_failure_key
      { test_name := "test.py::test_foo", job_name := "Job A",
        error_message := some "Error: timeout\ndetail", stack_trace := some "tb1" } =
    generate_failure_key
      { test_name := "test.py::test_foo", job_name := "Job A",
        error_message := some "Error: timeout\ndetail", log_snippet := some "snip" } := by
  exact c5_failure_key_deterministic.1 _ _ rfl

/-! ## classify.py — classify_failure

The infra / flaky regexes are alternations of literals compiled with `re.I`,
so `pattern.search(text)` is exactly "some alternative occurs in `text`
case-insensitively".  The GitHub issue search is an external collaborator
(subprocess `gh`); it is modelled as an input `Option (url × confidence ×
reason)`, `none` covering both "no match" and "collaborator unavailable"
(`CLIError`), which the code treats identically by falling through.
-/

/-- Case-insensitive containment, the semantics of `re.search` for one literal
alternative under `re.I`. -/
def containsCI (hay needle : String) : Bool :=
  decide ((needle.data.map Char.toLower) <:+: (hay.data.map Char.toLower))

/-- classify.py `INFRA_PATTERNS`: each regex as its list of literal
alternatives, with its description. -/
def INFRA_PATTERNS : List (List String × String) :=
  [(["timeout", "timed out"], "timeout detected"),
   (["connection refused", "network error"], "network issue"),
   (["no space left on device", "disk full"], "disk space"),
   (["out of memory", "OOM", "CUDA out of memory"], "OOM"),
   (["killed by signal", "SIGKILL"], "process killed"),
   (["cannot allocate memory"], "memory allocation"),
   (["failed to download", "download error"], "download failure"),
   (["agent lost", "lost connection to agent"], "agent connection lost")]

/-- classify.py `FLAKY_PATTERNS`. -/
def FLAKY_PATTERNS : List (List String × String) :=
  [(["flaky"], "test name contains flaky"),
   (["intermittent"], "intermittent failure"),
   (["passed on retry"], "passed on retry")]

/-- `"\n".join(filter(None, [error_message, stack_trace, log_snippet]))` —
`filter(None, ...)` drops both `None` and empty strings. -/
def combinedLog (f : TestFailure) : String :=
  String.intercalate "\n"
    ((([f.error_message, f.stack_trace, f.log_snippet].filterMap id)).filter
      (fun s => s ≠ ""))

/-- First pattern in the list matching `text`, returning its description. -/
def firstPatternMatch (pats : List (List String × String)) (text : String) :
    Option String :=
  pats.findSome? (fun p => if p.1.any (containsCI text) then some p.2 else none)

/-- First pattern matching the test name or `text` (flaky step). -/
def firstPatternMatchName (pats : List (List String × String))
    (name text : String) : Option String :=
  pats.findSome?
    (fun p => if p.1.any (fun n => containsCI name n || containsCI text n)
              then some p.2 else none)

/-- classify.py `classify_failure`.  `githubMatch` is the collaborator result
of `find_best_issue_match` (`none` = no valid match or `CLIError`). -/
def classify_failure (f : TestFailure)
    (githubMatch : Option (String × ℚ × String)) (search_github : Bool) :
    FailureClassification :=
  let key := generate_failure_key f
  match (if search_github then githubMatch else none) with
  | some (url, conf, why) =>
    { failure_key := key, test_failure := f, category := "KNOWN_TRACKED",
      github_issue := some url, confidence := conf, reason := why }
  | none =>
    let combined := combinedLog f
    match firstPatternMatch INFRA_PATTERNS combined with
    | some desc =>
      { failure_key := key, test_failure := f, category := "INFRA_SUSPECTED",
        confidence := 7/10, reason := "Infrastructure issue detected: " ++ desc }
    | none =>
      match firstPatternMatchName FLAKY_PATTERNS f.test_name combined with
      | some desc =>
        { failure_key := key, test_failure := f, category := "FLAKY_SUSPECTED",
          confidence := 6/10, reason := "Flaky test indicator: " ++ desc }
      | none =>
        match f.error_message with
        | some e =>
          if e = "" then
            { failure_key := key, test_failure := f,
              category := "NEEDS_HUMAN_TRIAGE", confidence := 3/10,
              reason := "Insufficient data for automatic classification" }
          else
            { failure_key := key, test_failure := f, category := "NEW_REGRESSION",
              confidence := 1/2, reason := "New failure with no known pattern" }
        | none =>
          { failure_key := key, test_failure := f,
            category := "NEEDS_HUMAN_TRIAGE", confidence := 3/10,
            reason := "Insufficient data for automatic classification" }

/-- Spec-side: some infra pattern matches the concatenated text. -/
def infraHit (f : TestFailure) : Bool :=
  INFRA_PATTERNS.any (fun p => p.1.any (containsCI (combinedLog f)))

/-- Spec-side: some flaky pattern matches the test name or the text. -/
def flakyHit (f : TestFailure) : Bool :=
  FLAKY_PATTERNS.any
    (fun p => p.1.any (fun n => containsCI f.test_name n || containsCI (combinedLog f) n))

/-- Python truthiness of `error_message`. -/
def errTruthy (f : TestFailure) : Bool :=
  match f.error_message with
  | some e => e ≠ ""
  | none => false

theorem firstPatternMatch_isSome (pats : List (List String × String)) (text : String) :
    (firstPatternMatch pats text).isSome =
      pats.any (fun p => p.1.any (containsCI text)) := by
  induction pats with
  | nil => rfl
  | cons p ps ih =>
    rw [firstPatternMatch, List.findSome?] at *
    split
    · next hs =>
      revert hs
      split <;> simp_all
    · next hs =>
      revert hs
      split <;> simp_all [firstPatternMatch]

theorem firstPatternMatchName_isSome (pats : List (List String × String))
    (name text : String) :
    (firstPatternMatchName pats name text).isSome =
      pats.any (fun p => p.1.any (fun n => containsCI name n || containsCI text n)) := by
  induction pats with
  | nil => rfl
  | cons p ps ih =>
    rw [firstPatternMatchName, List.findSome?] at *
    split
    · next hs =>
      revert hs
      split <;> simp_all
    · next hs =>
      revert hs
      split <;> simp_all [firstPatternMatchName]

/-- C7: with GitHub search disabled the classifier applies the ordered
heuristics with first match winning, at the fixed confidences 0.7 / 0.6 /
0.5 / 0.3. -/
theorem c7_classifier_ordered_heuristics (f : TestFailure)
    (gh : Option (String × ℚ × String)) :
    (infraHit f = true →
      (classify_failure f gh false).category = "INFRA_SUSPECTED" ∧
      (classify_failure f gh false).confidence = 7/10) ∧
    (infraHit f = false → flakyHit f = true →
      (classify_failure f gh false).category = "FLAKY_SUSPECTED" ∧
      (classify_failure f gh false).confidence = 6/10) ∧
    (infraHit f = false → flakyHit f = false → errTruthy f = true →
      (classify_failure f gh false).category = "NEW_REGRESSION" ∧
      (classify_failure f gh false).confidence = 1/2) ∧
    (infraHit f = false → flakyHit f = false → errTruthy f = false →
      (classify_failure f gh false).category = "NEEDS_HUMAN_TRIAGE" ∧
      (classify_failure f gh false).confidence = 3/10) := by
  have hinf := firstPatternMatch_isSome INFRA_PATTERNS (combinedLog f)
  have hfla := firstPatternMatchName_isSome FLAKY_PATTERNS f.test_name (combinedLog f)
  refine ⟨?_, ?_, ?_, ?_⟩
  · intro h
    rw [infraHit] at h
    rw [h] at hinf
    obtain ⟨d, hd⟩ := Option.isSome_iff_exists.mp hinf
    constructor <;> simp [classify_failure, hd]
  · intro h hf
    rw [infraHit] at h
    rw [h] at hinf
    have hnone : firstPatternMatch INFRA_PATTERNS (combinedLog f) = none :=
      Option.not_isSome_iff_eq_none.mp (by rw [hinf]; exact Bool.false_ne_true)
    rw [flakyHit] at hf
    rw [hf] at hfla
    obtain ⟨d, hd⟩ := Option.isSome_iff_exists.mp hfla
    constructor <;> simp [classify_failure, hnone, hd]
  · intro h hf he
    rw [infraHit] at h
    rw [h] at hinf
    have hnone : firstPatternMatch INFRA_PATTERNS (combinedLog f) = none :=
      Option.not_isSome_iff_eq_none.mp (by rw [hinf]; exact Bool.false_ne_true)
    rw [flakyHit] at hf
    rw [hf] at hfla
    have hnone2 : firstPatternMatchName FLAKY_PATTERNS f.test_name (combinedLog f) = none :=
      Option.not_isSome_iff_eq_none.mp (by rw [hfla]; exact Bool.false_ne_true)
    rw [errTruthy] at he
    revert he
    cases hm : f.error_message with
    | none => intro he; exact absurd he (by simp)
    | some e =>
      intro he
      simp only [ne_eq, decide_eq_true_eq] at he
      constructor <;> simp [classify_failure, hnone, hnone2, hm, he]
  · intro h hf he
    rw [infraHit] at h
    rw [h] at hinf
    have hnone : firstPatternMatch INFRA_PATTERNS (combinedLog f) = none :=
      Option.not_isSome_iff_eq_none.mp (by rw [hinf]; exact Bool.false_ne_true)
    rw [flakyHit] at hf
    rw [hf] at hfla
    have hnone2 : firstPatternMatchName FLAKY_PATTERNS f.test_name (combinedLog f) = none :=
      Option.not_isSome_iff_eq_none.mp (by rw [hfla]; exact Bool.false_ne_true)
    rw [errTruthy] at he
    revert he
    cases hm : f.error_message with
    | none => intro _; constructor <;> simp [classify_failure, hnone, hnone2, hm]
    | some e =>
      intro he
      rw [decide_eq_false_iff_not, not_not] at he
      constructor <;> simp [classify_failure, hnone, hnone2, hm, he]

/-- The concrete failure of the spec scenario. -/
def c7Failure : TestFailure :=
  { test_name := "t.py::m", job_name := "J",
    error_message := some "Connection timed out after 30s" }

/-- Witness for C7: the concrete "Connection timed out after 30s" failure is
INFRA_SUSPECTED at confidence 0.7 with a reason mentioning "timeout". -/
theorem c7_classifier_ordered_heuristics_witness :
    (classify_failure c7Failure none false).category = "INFRA_SUSPECTED" ∧
    (classify_failure c7Failure none false).confidence = 7/10 ∧
    "timeout".data <:+: (classify_failure c7Failure none false).reason.data := by
  have h := (c7_classifier_ordered_heuristics c7Failure none).1 (by decide)
  exact ⟨h.1, h.2, by decide⟩

/-! ## assessment.py — timeline assessment

Timeline entries are the dicts built by `get_test_history`; only the fields
read by `assess_test_history` and its helpers are modelled.  Fail rates are
ratios of small integer counts compared against 0.2 / 0.8; over the ranges
arising here (denominators ≤ the lookback count) the float comparisons of the
source agree with exact rational arithmetic, so rates are embedded as `ℚ`.
-/

structure JobOutcome where
  job_name : String := ""
  job_url : String := ""
  status : String := ""
  fingerprint_raw : Option String := none
  fingerprint_normalized : Option String := none
  log_excerpt : Option String := none
  error_message : Option String := none
deriving DecidableEq

structure TimelineEntry where
  build_number : Int
  build_url : String := ""
  created_at : String := ""
  commit_sha : String := "unknown"
  test_found : Bool
  test_status : String
  jobs : List JobOutcome := []
deriving DecidableEq

instance : Inhabited TimelineEntry :=
  ⟨{ build_number := 0, test_found := false, test_status := "unknown" }⟩

structure Assessment where
  classification : String
  confidence : String
  notes : List String
  transition_build : Option Int
deriving DecidableEq

/-- assessment.py `calculate_fail_rate` (`end_idx = None` means end of list). -/
def calculate_fail_rate (timeline : List TimelineEntry) (start_idx : Nat)
    (end_idx : Option Nat) : ℚ :=
  let e := end_idx.getD timeline.length
  let window := (timeline.take e).drop start_idx
  let found := window.filter (fun t => t.test_found)
  if found.isEmpty then 0
  else (found.countP (fun t => decide (t.test_status = "fail")) : ℚ) / (found.length : ℚ)

/-- The loop condition of `find_transition_point`: fail rate `< 0.2` before
`i`, `> 0.8` from `i` on. -/
def transCondB (timeline : List TimelineEntry) (i : Nat) : Bool :=
  decide (calculate_fail_rate timeline 0 (some i) < 1/5) &&
  decide ((4 : ℚ)/5 < calculate_fail_rate timeline i none)

/-- The `for i in range(1, len(timeline))` search, by fuel on the remaining
indices. -/
def findTransitionGo (timeline : List TimelineEntry) : Nat → Nat → Option Nat
  | _, 0 => none
  | i, fuel + 1 =>
    if transCondB timeline i then some i
    else findTransitionGo timeline (i + 1) fuel

/-- assessment.py `find_transition_point`. -/
def find_transition_point (timeline : List TimelineEntry) : Option Nat :=
  if timeline.length < 3 then none
  else findTransitionGo timeline 1 (timeline.length - 1)

/-- The fingerprints contributed by one entry: only failing entries with a
non-empty job list contribute, and only jobs with a truthy
`fingerprint_normalized` (not `None`, not `""`). -/
def entryFingerprints (t : TimelineEntry) : List String :=
  if t.test_status = "fail" ∧ t.jobs ≠ [] then
    t.jobs.filterMap (fun j =>
      match j.fingerprint_normalized with
      | some s => if s = "" then none else some s
      | none => none)
  else []

def collectFingerprints (l : List TimelineEntry) : List String :=
  l.foldr (fun t acc => entryFingerprints t ++ acc) []

/-- `Counter(l).most_common(1)[0][1]` for nonempty `l`: the maximal
multiplicity. -/
def maxCount (l : List String) : Nat :=
  (l.map (fun x => l.count x)).foldr max 0

/-- assessment.py `consistent_fingerprint_after`. -/
def consistent_fingerprint_after (timeline : List TimelineEntry)
    (start_idx : Nat) : Bool :=
  let fps := collectFingerprints (timeline.drop start_idx)
  if fps.isEmpty then false
  else decide ((4 : ℚ)/5 < (maxCount fps : ℚ) / (fps.length : ℚ))

/-- Python `f"{q:.1%}"` on the exact rational (round half up; the claims do
not depend on the notes, where the float formatting could differ on ties). -/
def pct1 (q : ℚ) : String :=
  let m : Nat := (⌊q * 1000 + 1/2⌋).toNat
  toString (m / 10) ++ "." ++ toString (m % 10) ++ "%"

/-- The fall-through of `assess_test_history` after the regression check:
the flake / persistent / sporadic bands. -/
def assessBands (found : List TimelineEntry) (fail_rate : ℚ) : Assessment :=
  if 1/5 ≤ fail_rate ∧ fail_rate ≤ 4/5 then
    let all_fps := collectFingerprints found
    if all_fps.isEmpty then
      { classification := "SPORADIC", confidence := "MED",
        notes := ["Intermittent failures: " ++ pct1 fail_rate ++ " fail rate",
                  "Occasional failures without clear pattern"],
        transition_build := none }
    else if 1 < all_fps.dedup.length then
      { classification := "FLAKE_ONSET", confidence := "MED",
        notes := ["Intermittent failures: " ++ pct1 fail_rate ++ " fail rate",
                  toString all_fps.dedup.length ++ " different failure fingerprints detected",
                  "Test alternates between passing and failing"],
        transition_build := none }
    else
      { classification := "SPORADIC", confidence := "MED",
        notes := ["Intermittent failures: " ++ pct1 fail_rate ++ " fail rate",
                  "Occasional failures without clear pattern"],
        transition_build := none }
  else if 4/5 < fail_rate then
    let all_fps := collectFingerprints found
    let consistent : Bool :=
      if all_fps.isEmpty then false
      else decide ((4 : ℚ)/5 < (maxCount all_fps : ℚ) / (all_fps.length : ℚ))
    { classification := "PERSISTENT_FAIL", confidence := "HIGH",
      notes := ["Failing in " ++ pct1 fail_rate ++ " of recent builds",
                "Consistent fingerprint: " ++ (if consistent then "True" else "False"),
                "Test has been broken for extended period"],
      transition_build := none }
  else
    { classification := "SPORADIC", confidence := "HIGH",
      notes := ["Rare failures: " ++ pct1 fail_rate ++ " fail rate",
                "Test is mostly stable with occasional failures"],
      transition_build := none }

/-- assessment.py `assess_test_history`.  The Python code returns REGRESSION
only when a transition point exists *and* the post-transition fingerprints
are consistent; in every other case it falls through to the rate bands
(`assessBands`). -/
def assess_test_history (timeline : List TimelineEntry) : Assessment :=
  let found := timeline.filter (fun t => t.test_found)
  if found.length < 3 then
    { classification := "INSUFFICIENT_DATA", confidence := "LOW",
      notes := ["Test found in only " ++ toString found.length ++ " builds",
                "Need at least 3 builds to detect patterns"],
      transition_build := none }
  else
    let fail_rate := calculate_fail_rate found 0 none
    match find_transition_point found with
    | some ti =>
      if consistent_fingerprint_after found ti then
        let tb := found.getD ti default
        { classification := "REGRESSION", confidence := "HIGH",
          notes := ["Clear transition at build " ++ toString tb.build_number ++
                      " (commit " ++ pyTake 7 tb.commit_sha ++ ")",
                    "Consistent failure fingerprint across " ++
                      toString (found.length - ti) ++ " builds after transition",
                    "Fail rate before: " ++ pct1 (calculate_fail_rate found 0 (some ti)),
                    "Fail rate after: " ++ pct1 (calculate_fail_rate found ti none)],
          transition_build := some tb.build_number }
      else assessBands found fail_rate
    | none => assessBands found fail_rate

/-! ### C3: the REGRESSION rule of the assessor -/

/-- The found subsequence (entries with `test_found == true`). -/
def foundOf (tl : List TimelineEntry) : List TimelineEntry :=
  tl.filter (fun t => t.test_found)

/-- Spec-side transition-rate condition at index `i`, written directly with
counts: fail rate over `found[0..i)` below 0.2 and over `found[i..)` above
0.8. -/
def specRateCond (found : List TimelineEntry) (i : Nat) : Prop :=
  ((found.take i).countP (fun t => decide (t.test_status = "fail")) : ℚ) / (i : ℚ) < 1/5 ∧
  (4 : ℚ)/5 <
    ((found.drop i).countP (fun t => decide (t.test_status = "fail")) : ℚ) /
      ((found.length - i : Nat) : ℚ)

/-- `i` is the smallest index in `[1, |found|)` satisfying the rate
condition. -/
def specSmallestTransition (found : List TimelineEntry) (i : Nat) : Prop :=
  1 ≤ i ∧ i < found.length ∧ specRateCond found i ∧
    ∀ j, 1 ≤ j → j < i → ¬ specRateCond found j

/-- Spec-side modal-fingerprint condition: some fingerprint occurs in more
than 80% of the failing-job fingerprints collected from `found[i..)`. -/
def specModal (found : List TimelineEntry) (i : Nat) : Prop :=
  ∃ m, (4 : ℚ)/5 * ((collectFingerprints (found.drop i)).length : ℚ) <
    ((collectFingerprints (found.drop i)).count m : ℚ)

theorem findTransitionGo_some_iff (tl : List TimelineEntry) :
    ∀ (fuel i j : Nat), findTransitionGo tl i fuel = some j ↔
      (i ≤ j ∧ j < i + fuel ∧ transCondB tl j = true ∧
        ∀ k, i ≤ k → k < j → transCondB tl k = false) := by
  intro fuel
  induction fuel with
  | zero =>
    intro i j
    rw [findTransitionGo]
    constructor
    · intro h; exact absurd h (by simp)
    · rintro ⟨h1, h2, _⟩; omega
  | succ fuel ih =>
    intro i j
    rw [findTransitionGo]
    split
    · next hc =>
      constructor
      · intro h
        obtain rfl : i = j := by simpa using h
        exact ⟨le_refl _, by omega, hc, fun k hk1 hk2 => absurd (lt_of_le_of_lt hk1 hk2)
          (lt_irrefl _)⟩
      · rintro ⟨h1, _, _, hmin⟩
        rcases Nat.eq_or_lt_of_le h1 with rfl | hlt
        · rfl
        · exact absurd hc (by rw [hmin i (le_refl i) hlt]; exact Bool.false_ne_true)
    · next hc =>
      rw [ih (i + 1) j]
      constructor
      · rintro ⟨h1, h2, h3, hmin⟩
        refine ⟨by omega, by omega, h3, fun k hk1 hk2 => ?_⟩
        rcases Nat.eq_or_lt_of_le hk1 with rfl | hlt
        · exact Bool.eq_false_iff.mpr hc
        · exact hmin k hlt hk2
      · rintro ⟨h1, h2, h3, hmin⟩
        have hne : i ≠ j := by
          rintro rfl
          exact hc (by simpa using h3)
        exact ⟨by omega, by omega, h3, fun k hk1 hk2 => hmin k (by omega) hk2⟩

theorem foundOf_all_found (tl : List TimelineEntry) :
    ∀ t ∈ foundOf tl, t.test_found = true := by
  intro t ht
  exact (List.mem_filter.mp ht).2

theorem filter_found_of_all (l : List TimelineEntry)
    (h : ∀ t ∈ l, t.test_found = true) :
    l.filter (fun t => t.test_found) = l :=
  List.filter_eq_self.mpr h

theorem calcRate_take (found : List TimelineEntry)
    (hfound : ∀ t ∈ found, t.test_found = true) (i : Nat)
    (h1 : 1 ≤ i) (h2 : i ≤ found.length) :
    calculate_fail_rate found 0 (some i) =
      ((found.take i).countP (fun t => decide (t.test_status = "fail")) : ℚ) / (i : ℚ) := by
  unfold calculate_fail_rate
  simp only [Option.getD_some, List.drop_zero]
  rw [filter_found_of_all _ (fun t ht => hfound t (List.take_subset i found ht))]
  have hlen : (found.take i).length = i := by
    rw [List.length_take]; omega
  rw [if_neg (by rw [List.isEmpty_iff]; intro hnil; rw [hnil] at hlen; simp at hlen; omega)]
  rw [hlen]

theorem calcRate_drop (found : List TimelineEntry)
    (hfound : ∀ t ∈ found, t.test_found = true) (i : Nat)
    (h2 : i < found.length) :
    calculate_fail_rate found i none =
      ((found.drop i).countP (fun t => decide (t.test_status = "fail")) : ℚ) /
        ((found.length - i : Nat) : ℚ) := by
  unfold calculate_fail_rate
  simp only [Option.getD_none, List.take_length]
  rw [filter_found_of_all _ (fun t ht => hfound t (List.drop_subset i found ht))]
  have hlen : (found.drop i).length = found.length - i := List.length_drop i found
  rw [if_neg (by rw [List.isEmpty_iff]; intro hnil; rw [hnil] at hlen; simp at hlen; omega)]
  rw [hlen]

theorem transCondB_iff_spec (found : List TimelineEntry)
    (hfound : ∀ t ∈ found, t.test_found = true) (i : Nat)
    (h1 : 1 ≤ i) (h2 : i < found.length) :
    transCondB found i = true ↔ specRateCond found i := by
  unfold transCondB specRateCond
  rw [calcRate_take found hfound i h1 (le_of_lt h2), calcRate_drop found hfound i h2]
  simp [Bool.and_eq_true, decide_eq_true_eq]

theorem le_foldr_max (n : Nat) (l : List Nat) : ∀ x ∈ l, x ≤ l.foldr max n := by
  induction l with
  | nil => intro x hx; exact absurd hx (List.not_mem_nil x)
  | cons a l ih =>
    intro x hx
    rcases List.mem_cons.mp hx with rfl | hx
    · exact le_max_left _ _
    · exact le_trans (ih x hx) (le_max_right _ _)

theorem foldr_max_cases (n : Nat) (l : List Nat) :
    l.foldr max n = n ∨ l.foldr max n ∈ l := by
  induction l with
  | nil => exact Or.inl rfl
  | cons a l ih =>
    simp only [List.foldr_cons]
    rcases Nat.le_total a (l.foldr max n) with h | h
    · rw [max_eq_right h]
      rcases ih with h2 | h2
      · exact Or.inl h2
      · exact Or.inr (List.mem_cons_of_mem a h2)
    · rw [max_eq_left h]
      exact Or.inr (List.mem_cons_self a l)

theorem count_le_maxCount (fps : List String) (m : String) (hm : m ∈ fps) :
    fps.count m ≤ maxCount fps :=
  le_foldr_max 0 _ _ (List.mem_map_of_mem (fun x => fps.count x) hm)

theorem maxCount_achieved (fps : List String) :
    maxCount fps = 0 ∨ ∃ m ∈ fps, maxCount fps = fps.count m := by
  rcases foldr_max_cases 0 (fps.map (fun x => fps.count x)) with h | h
  · exact Or.inl h
  · obtain ⟨m, hm, he⟩ := List.mem_map.mp h
    exact Or.inr ⟨m, hm, he.symm⟩

theorem consistentAux_iff (fps : List String) :
    (if fps.isEmpty = true then false
     else decide ((4 : ℚ)/5 < (maxCount fps : ℚ) / (fps.length : ℚ))) = true ↔
      ∃ m, (4 : ℚ)/5 * (fps.length : ℚ) < (fps.count m : ℚ) := by
  constructor
  · intro h
    split at h
    · exact absurd h (by simp)
    · next hne =>
      have hlen : 0 < fps.length := by
        rcases Nat.eq_zero_or_pos fps.length with h0 | h0
        · exact absurd (List.eq_nil_of_length_eq_zero h0)
            (by intro hnil; rw [List.isEmpty_iff] at hne; exact hne hnil)
        · exact h0
      have hlenQ : (0 : ℚ) < (fps.length : ℚ) := by exact_mod_cast hlen
      rw [decide_eq_true_eq, lt_div_iff₀ hlenQ] at h
      rcases maxCount_achieved fps with h0 | ⟨m, hm, he⟩
      · rw [h0] at h
        push_cast at h
        exact absurd h (not_lt.mpr (by positivity))
      · exact ⟨m, by rw [← he]; exact h⟩
  · rintro ⟨m, hm⟩
    have hcount : 0 < fps.count m := by
      by_contra h0
      have hz : fps.count m = 0 := by omega
      rw [hz] at hm
      push_cast at hm
      exact absurd hm (not_lt.mpr (by positivity))
    have hmem : m ∈ fps := List.count_pos_iff.mp hcount
    have hne : fps.isEmpty = false := by
      rw [Bool.eq_false_iff]
      intro hE
      rw [List.isEmpty_iff] at hE
      rw [hE] at hmem
      exact List.not_mem_nil m hmem
    rw [hne]
    simp only [Bool.false_eq_true, if_false, decide_eq_true_eq]
    have hlenQ : (0 : ℚ) < (fps.length : ℚ) := by
      have := List.length_pos_of_mem hmem
      exact_mod_cast this
    rw [lt_div_iff₀ hlenQ]
    calc (4 : ℚ)/5 * (fps.length : ℚ)
        < (fps.count m : ℚ) := hm
      _ ≤ (maxCount fps : ℚ) := by exact_mod_cast count_le_maxCount _ m hmem

theorem consistent_iff_modal (tl : List TimelineEntry) (i : Nat) :
    consistent_fingerprint_after tl i = true ↔
      ∃ m, (4 : ℚ)/5 * ((collectFingerprints (tl.drop i)).length : ℚ) <
        ((collectFingerprints (tl.drop i)).count m : ℚ) :=
  consistentAux_iff (collectFingerprints (tl.drop i))

theorem assessBands_not_regression (found : List TimelineEntry) (r : ℚ) :
    (assessBands found r).classification ≠ "REGRESSION" := by
  unfold assessBands
  dsimp only
  split
  · split
    · simp
    · split <;> simp
  · split <;> simp

theorem find_transition_some_iff (found : List TimelineEntry)
    (h3 : 3 ≤ found.length) (j : Nat) :
    find_transition_point found = some j ↔
      (1 ≤ j ∧ j < found.length ∧ transCondB found j = true ∧
        ∀ k, 1 ≤ k → k < j → transCondB found k = false) := by
  unfold find_transition_point
  rw [if_neg (by omega), findTransitionGo_some_iff]
  constructor
  · rintro ⟨h1, h2, hc, hmin⟩
    exact ⟨h1, by omega, hc, hmin⟩
  · rintro ⟨h1, h2, hc, hmin⟩
    exact ⟨h1, by omega, hc, hmin⟩

theorem find_transition_some_iff_spec (found : List TimelineEntry)
    (hfound : ∀ t ∈ found, t.test_found = true)
    (h3 : 3 ≤ found.length) (j : Nat) :
    find_transition_point found = some j ↔ specSmallestTransition found j := by
  rw [find_transition_some_iff found h3 j]
  unfold specSmallestTransition
  constructor
  · rintro ⟨h1, h2, hc, hmin⟩
    refine ⟨h1, h2, (transCondB_iff_spec found hfound j h1 h2).mp hc, ?_⟩
    intro k hk1 hk2
    rw [← transCondB_iff_spec found hfound k hk1 (by omega)]
    rw [hmin k hk1 hk2]
    exact Bool.false_ne_true
  · rintro ⟨h1, h2, hc, hmin⟩
    refine ⟨h1, h2, (transCondB_iff_spec found hfound j h1 h2).mpr hc, ?_⟩
    intro k hk1 hk2
    rw [Bool.eq_false_iff]
    intro hk
    exact hmin k hk1 hk2 ((transCondB_iff_spec found hfound k hk1 (by omega)).mp hk)

/-- C3: with at least three found entries, `assess_test_history` classifies
REGRESSION exactly when the smallest rate-transition index exists and the
post-transition fingerprints are >80% modal; and at that index the result is
REGRESSION / HIGH with `transition_build` the found entry's build number. -/
theorem c3_assessor_regression_rule (tl : List TimelineEntry)
    (h3 : 3 ≤ (foundOf tl).length) :
    ((assess_test_history tl).classification = "REGRESSION" ↔
      ∃ i, specSmallestTransition (foundOf tl) i ∧ specModal (foundOf tl) i) ∧
    (∀ (i : Nat) (e : TimelineEntry),
      specSmallestTransition (foundOf tl) i → specModal (foundOf tl) i →
      (foundOf tl).get? i = some e →
      (assess_test_history tl).classification = "REGRESSION" ∧
      (assess_test_history tl).confidence = "HIGH" ∧
      (assess_test_history tl).transition_build = some e.build_number) := by
  have hfound := foundOf_all_found tl
  have hlen3 : ¬ ((foundOf tl).length < 3) := by omega
  have hred : ∀ (i : Nat), find_transition_point (foundOf tl) = some i →
      consistent_fingerprint_after (foundOf tl) i = true →
      (assess_test_history tl).classification = "REGRESSION" ∧
      (assess_test_history tl).confidence = "HIGH" ∧
      (assess_test_history tl).transition_build =
        some (((foundOf tl).getD i default).build_number) := by
    intro i hft hcons
    unfold assess_test_history
    dsimp only
    rw [show tl.filter (fun t => t.test_found) = foundOf tl from rfl]
    rw [if_neg hlen3, hft]
    dsimp only
    rw [if_pos hcons]
    exact ⟨rfl, rfl, rfl⟩
  constructor
  · constructor
    · intro hcl
      rcases hft : find_transition_point (foundOf tl) with _ | ti
      · exfalso
        apply assessBands_not_regression (foundOf tl)
          (calculate_fail_rate (foundOf tl) 0 none)
        rw [← hcl]
        unfold assess_test_history
        dsimp only
        rw [show tl.filter (fun t => t.test_found) = foundOf tl from rfl]
        rw [if_neg hlen3, hft]
      · cases hcons : consistent_fingerprint_after (foundOf tl) ti with
        | false =>
          exfalso
          apply assessBands_not_regression (foundOf tl)
            (calculate_fail_rate (foundOf tl) 0 none)
          rw [← hcl]
          unfold assess_test_history
          dsimp only
          rw [show tl.filter (fun t => t.test_found) = foundOf tl from rfl]
          rw [if_neg hlen3, hft]
          dsimp only
          rw [if_neg (by rw [hcons]; exact Bool.false_ne_true)]
        | true =>
          refine ⟨ti, ?_, ?_⟩
          · exact (find_transition_some_iff_spec (foundOf tl) hfound h3 ti).mp hft
          · exact (consistent_iff_modal (foundOf tl) ti).mp hcons
    · rintro ⟨i, hspec, hmodal⟩
      have hft : find_transition_point (foundOf tl) = some i :=
        (find_transition_some_iff_spec (foundOf tl) hfound h3 i).mpr hspec
      have hcons : consistent_fingerprint_after (foundOf tl) i = true :=
        (consistent_iff_modal (foundOf tl) i).mpr hmodal
      exact (hred i hft hcons).1
  · intro i e hspec hmodal hget
    have hft : find_transition_point (foundOf tl) = some i :=
      (find_transition_some_iff_spec (foundOf tl) hfound h3 i).mpr hspec
    have hcons : consistent_fingerprint_after (foundOf tl) i = true :=
      (consistent_iff_modal (foundOf tl) i).mpr hmodal
    obtain ⟨h1, h2, h3b⟩ := hred i hft hcons
    refine ⟨h1, h2, ?_⟩
    rw [h3b, List.getD_eq_getD_get?, hget]
    rfl

/-! Concrete C3 scenario: five found entries [pass, pass, fail, fail, fail],
all failing jobs with fingerprint "Error A". -/

def c3job : JobOutcome := { status := "fail", fingerprint_normalized := some "Error A" }

def c3entry (n : Int) (st : String) : TimelineEntry :=
  { build_number := n, test_found := true, test_status := st,
    jobs := if st = "fail" then [c3job] else [] }

def c3tl : List TimelineEntry :=
  [c3entry 1 "pass", c3entry 2 "pass", c3entry 3 "fail", c3entry 4 "fail", c3entry 5 "fail"]

/-- Witness for C3: the concrete five-entry timeline is REGRESSION / HIGH
with `transition_build` the build number of entry 2 (build 3). -/
theorem c3_assessor_regression_rule_witness :
    (assess_test_history c3tl).classification = "REGRESSION" ∧
    (assess_test_history c3tl).confidence = "HIGH" ∧
    (assess_test_history c3tl).transition_build = some 3 := by
  have hlen : (foundOf c3tl).length = 5 := rfl
  have hspec : specSmallestTransition (foundOf c3tl) 2 := by
    refine ⟨by omega, by omega, ?_, ?_⟩
    · constructor
      · have hc : ((foundOf c3tl).take 2).countP
            (fun t => decide (t.test_status = "fail")) = 0 := rfl
        rw [hc]
        norm_num
      · have hc : ((foundOf c3tl).drop 2).countP
            (fun t => decide (t.test_status = "fail")) = 3 := rfl
        rw [hc, hlen]
        norm_num
    · intro j hj1 hj2
      have hj : j = 1 := by omega
      subst hj
      rintro ⟨_, hB⟩
      have hc : ((foundOf c3tl).drop 1).countP
          (fun t => decide (t.test_status = "fail")) = 3 := rfl
      rw [hc, hlen] at hB
      norm_num at hB
  have hmodal : specModal (foundOf c3tl) 2 := by
    refine ⟨"Error A", ?_⟩
    have hc : collectFingerprints ((foundOf c3tl).drop 2) =
        ["Error A", "Error A", "Error A"] := rfl
    rw [hc]
    norm_num
  exact (c3_assessor_regression_rule c3tl (by rw [hlen]; omega)).2 2 (c3entry 3 "fail")
    hspec hmodal rfl

/-! ## normalize.py — the pytest log parser

The patterns are embedded as deterministic scanners.  Where Python's
backtracking is non-vacuous (the noise class `[\s\x1b\[0-9;m]+` overlaps the
nodeid classes, and `\S+` overlaps the noise class) the scanner enumerates
the candidate splits in the greedy order, longest first, exactly as the
backtracking engine does.
-/

/-- Python regex `\s` (ASCII). -/
def isSpaceC (c : Char) : Bool :=
  c = ' ' || c = '\t' || c = '\n' || c = '\r' || c = '\x0b' || c = '\x0c'

/-- The noise class `[\s\x1b\[0-9;m]` of the pytest status patterns. -/
def isNoiseC (c : Char) : Bool :=
  isSpaceC c || c = '\x1b' || c = '[' || isDigitC c || c = ';' || c = 'm'

/-- The nodeid head class `[\w/.-]`. -/
def isNodeidC (c : Char) : Bool := isWordC c || c = '/' || c = '.' || c = '-'

/-- Python regex `\S`. -/
def isNonSpaceC (c : Char) : Bool := !(isSpaceC c)

/-- `ANSI_ESCAPE_PATTERN = \x1b\[[0-9;]*m|\[[0-9;]*m` at the head (the
greedy `[0-9;]*` is deterministic because `m` is outside the class). -/
def matchAnsiAt : List Char → Option (List Char)
  | '\x1b' :: '[' :: t =>
    (match t.dropWhile (fun c => isDigitC c || c = ';') with
     | 'm' :: rest => some rest
     | _ => none)
  | '[' :: t =>
    (match t.dropWhile (fun c => isDigitC c || c = ';') with
     | 'm' :: rest => some rest
     | _ => none)
  | _ => none

/-- `BK_TIMESTAMP_PATTERN = _bk;t=[0-9]+\x07` at the head. -/
def matchBkAt : List Char → Option (List Char)
  | '_' :: 'b' :: 'k' :: ';' :: 't' :: '=' :: t =>
    (match t with
     | c :: _ =>
       if isDigitC c then
         match t.dropWhile isDigitC with
         | '\x07' :: rest => some rest
         | _ => none
       else none
     | [] => none)
  | _ => none

/-- normalize.py `strip_ansi_codes` (ANSI sub first, then the Buildkite
timestamp sub, both with empty replacement). -/
def stripAnsiL (s : List Char) : List Char :=
  scanSub matchBkAt [] (scanSub matchAnsiAt [] s)

def strip_ansi_codes (s : String) : String := ⟨stripAnsiL s.data⟩

/-- The capture group `([\w/.-]+::\S+)` at the head: maximal nodeid-class run,
literal `::`, maximal nonempty non-space run.  Returns (captured, rest). -/
def captureAt (u : List Char) : Option (List Char × List Char) :=
  let a := u.takeWhile isNodeidC
  if a.isEmpty then none else
  match u.drop a.length with
  | ':' :: ':' :: w =>
    let sRun := w.takeWhile isNonSpaceC
    if sRun.isEmpty then none else
    some (a ++ ':' :: ':' :: sRun, w.drop sRun.length)
  | _ => none

/-- Backtracking over the noise-run length for
`STATUS[\s\x1b\[0-9;m]+(G)`: the argument is the candidate noise length,
tried longest first. -/
def alt1Try (rest0 : List Char) : Nat → Option (List Char × Nat)
  | 0 => none
  | k + 1 =>
    match captureAt (rest0.drop (k + 1)) with
    | some (cap, _) => some (cap, k + 1 + cap.length)
    | none => alt1Try rest0 k

/-- Alternative 1 `STATUS[\s\x1b\[0-9;m]+([\w/.-]+::\S+)` at the head.
Returns (captured nodeid, total consumed length). -/
def alt1At (status : List Char) (s : List Char) : Option (List Char × Nat) :=
  if s.take status.length = status then
    let rest0 := s.drop status.length
    match alt1Try rest0 (rest0.takeWhile isNoiseC).length with
    | some (cap, consumed) => some (cap, status.length + consumed)
    | none => none
  else none

/-- Backtracking over the `\S+` length for `(G)[\s\x1b\[0-9;m]+STATUS`: the
argument is the candidate `\S+` length after `::`, tried longest first; the
noise run after it is deterministic (`STATUS` starts outside the noise
class). -/
def alt2Try (status : List Char) (w : List Char) : Nat → Option Nat
  | 0 => none
  | m + 1 =>
    let rest := w.drop (m + 1)
    let nz := rest.takeWhile isNoiseC
    if 1 ≤ nz.length ∧ (rest.drop nz.length).take status.length = status
    then some (m + 1) else alt2Try status w m

/-- Alternative 2 `([\w/.-]+::\S+)[\s\x1b\[0-9;m]+STATUS` at the head. -/
def alt2At (status : List Char) (s : List Char) : Option (List Char × Nat) :=
  let a := s.takeWhile isNodeidC
  if a.isEmpty then none else
  match s.drop a.length with
  | ':' :: ':' :: w =>
    let sMax := w.takeWhile isNonSpaceC
    match alt2Try status w sMax.length with
    | some m =>
      let nz := ((w.drop m).takeWhile isNoiseC).length
      some (a ++ ':' :: ':' :: w.take m, a.length + 2 + m + nz + status.length)
    | none => none
  | _ => none

/-- `re.findall` scan for `PYTEST_FAILED_PATTERN` / `PYTEST_ERROR_PATTERN`
(the second parameter counts already-consumed match characters to skip). -/
def findallAux (status : List Char) : List Char → Nat → List (List Char)
  | [], _ => []
  | _ :: t, k + 1 => findallAux status t k
  | c :: t, 0 =>
    match alt1At status (c :: t) with
    | some (cap, consumed) => cap :: findallAux status t (consumed - 1)
    | none =>
      match alt2At status (c :: t) with
      | some (cap, consumed) => cap :: findallAux status t (consumed - 1)
      | none => findallAux status t 0

def pytestFindall (status : List Char) (log : List Char) : List (List Char) :=
  findallAux status log 0

/-- Order-preserving dedup of the extracted nodeids (the `seen` set loop). -/
def dedupNamesAux (seen : List (List Char)) : List (List Char) → List (List Char)
  | [] => []
  | n :: ns =>
    if n ∈ seen then dedupNamesAux seen ns
    else n :: dedupNamesAux (n :: seen) ns

/-- The header `={3,}\s*short test summary info\s*={3,}` at the head; returns
the suffix where the lazy capture begins (after the greedy second `=` run). -/
def stssHeaderAt (s : List Char) : Option (List Char) :=
  let e1 := s.takeWhile (fun c => c = '=')
  if e1.length < 3 then none else
  let s1 := (s.drop e1.length).dropWhile isSpaceC
  let lit := "short test summary info".data
  if s1.take lit.length = lit then
    let s2 := (s1.drop lit.length).dropWhile isSpaceC
    let e2 := s2.takeWhile (fun c => c = '=')
    if e2.length < 3 then none else some (s2.drop e2.length)
  else none

/-- The lazy capture `(.*?)(?:={3,}|$)` under `re.MULTILINE | re.DOTALL`:
grow until three `=` ahead, a newline ahead (`$` in MULTILINE), or the end. -/
def stssCapture : List Char → List Char
  | [] => []
  | c :: t =>
    if (c :: t).take 3 = ['=', '=', '='] then []
    else if c = '\n' then []
    else c :: stssCapture t

/-- `re.search` scan for the short-test-summary section. -/
def stssSearch : List Char → Option (List Char)
  | [] => none
  | c :: t =>
    match stssHeaderAt (c :: t) with
    | some rest => some (stssCapture rest)
    | none => stssSearch t

/-- `^(?:FAILED|ERROR)\s+([\w/.-]+::\S+)` at a line start. -/
def stssLineMatch (u : List Char) : Option (List Char) :=
  let tryWord (word : List Char) : Option (List Char) :=
    if u.take word.length = word then
      let r := u.drop word.length
      let ws := r.takeWhile isSpaceC
      if ws.isEmpty then none else
      match captureAt (r.drop ws.length) with
      | some (cap, _) => some cap
      | none => none
    else none
  match tryWord "FAILED".data with
  | some cap => some cap
  | none => tryWord "ERROR".data

/-- The `re.findall` of the summary-line pattern: anchored at line starts
(fuel is the section length; every step consumes at least one character). -/
def stssFindallAux : Nat → List Char → List (List Char)
  | 0, _ => []
  | _, [] => []
  | fuel + 1, s =>
    let head := match stssLineMatch s with | some cap => [cap] | none => []
    let rest := s.dropWhile (fun c => c ≠ '\n')
    let nextLine := match rest with | '\n' :: t => t | _ => []
    head ++ stssFindallAux fuel nextLine

def stssFindall (s : List Char) : List (List Char) := stssFindallAux s.length s

/-- The per-test section header `_{10,}\s+{escaped}\s+_{10,}` at the head;
returns the suffix where the lazy capture begins. -/
def sectionHeaderAt (name : List Char) (s : List Char) : Option (List Char) :=
  let u1 := s.takeWhile (fun c => c = '_')
  if u1.length < 10 then none else
  let s1 := s.drop u1.length
  let ws1 := s1.takeWhile isSpaceC
  if ws1.isEmpty then none else
  let s2 := s1.drop ws1.length
  if s2.take name.length = name then
    let s3 := s2.drop name.length
    let ws2 := s3.takeWhile isSpaceC
    if ws2.isEmpty then none else
    let s4 := s3.drop ws2.length
    let u2 := s4.takeWhile (fun c => c = '_')
    if u2.length < 10 then none else some (s4.drop u2.length)
  else none

/-- The lazy capture `(.*?)(?=_{10,}|\Z)` with `re.DOTALL`: grow until ten
underscores ahead or the absolute end. -/
def sectionCapture : List Char → List Char
  | [] => []
  | c :: t =>
    if (c :: t).take 10 = List.replicate 10 '_' then []
    else c :: sectionCapture t

/-- `re.search` scan for the per-test failure section. -/
def findSectionAux (name : List Char) : List Char → Option (List Char)
  | [] => none
  | c :: t =>
    match sectionHeaderAt name (c :: t) with
    | some rest => some (sectionCapture rest)
    | none => findSectionAux name t

def find_section (log name : List Char) : Option (List Char) :=
  findSectionAux name log

/-- `re.search` scan with a head matcher returning `group(0)`. -/
def searchFirst (m : List Char → Option (List Char)) : List Char → Option (List Char)
  | [] => none
  | c :: t =>
    match m (c :: t) with
    | some g => some g
    | none => searchFirst m t

/-- `(\w+Error): (.+?)(?:\n|$)` at the head: a word run of length ≥ 6 ending
in "Error" (the `\w+` demands at least one character before it, and the
following `:` pins the run end), then `": "`, then the nonempty rest of the
line, with a trailing newline included in `group(0)` when present. -/
def errSigWordAt (s : List Char) : Option (List Char) :=
  let r := s.takeWhile isWordC
  if 6 ≤ r.length ∧ r.drop (r.length - 5) = "Error".data then
    match s.drop r.length with
    | ':' :: ' ' :: w =>
      let content := w.takeWhile (fun c => c ≠ '\n')
      if content.isEmpty then none
      else some (r ++ ':' :: ' ' :: content ++
        (match w.drop content.length with | '\n' :: _ => ['\n'] | _ => []))
    | _ => none
  else none

/-- `LIT(.+?)(?:\n|$)` at the head for the literal error patterns. -/
def errSigLitAt (lit : List Char) (s : List Char) : Option (List Char) :=
  if s.take lit.length = lit then
    let w := s.drop lit.length
    let content := w.takeWhile (fun c => c ≠ '\n')
    if content.isEmpty then none
    else some (lit ++ content ++
      (match w.drop content.length with | '\n' :: _ => ['\n'] | _ => []))
  else none

/-- Python `str.strip()`. -/
def pyStrip (s : List Char) : List Char :=
  ((s.dropWhile isSpaceC).reverse.dropWhile isSpaceC).reverse

/-- The `ERROR_SIG_PATTERNS` loop: first pattern with a match wins, and the
match's `group(0).strip()` is used. -/
def errorSigSearch (sectText : List Char) : Option (List Char) :=
  match searchFirst errSigWordAt sectText with
  | some g => some (pyStrip g)
  | none =>
    match searchFirst (errSigLitAt "AssertionError: ".data) sectText with
    | some g => some (pyStrip g)
    | none =>
      match searchFirst (errSigLitAt "RuntimeError: ".data) sectText with
      | some g => some (pyStrip g)
      | none =>
        match searchFirst (errSigLitAt "TimeoutError: ".data) sectText with
        | some g => some (pyStrip g)
        | none => none

/-- The context pattern `{escaped}.*?(?:\n.*?){0,10}` with `re.DOTALL`: every
quantifier is lazy with nothing mandatory after it, so the leftmost match is
exactly the first literal occurrence of the nodeid and `group(0)` is the
nodeid itself. -/
def findContext (log name : List Char) : Option (List Char) :=
  searchFirst (fun s => if s.take name.length = name then some name else none) log

/-- The per-nodeid detail extraction of `extract_test_failures_from_log`. -/
def extractDetail (logL : List Char) (jobName : String) (nameL : List Char) :
    TestFailure :=
  match find_section logL nameL with
  | some sect =>
    { test_name := ⟨nameL⟩, job_name := jobName,
      error_message := (errorSigSearch sect).map (fun e => ⟨e.take 200⟩),
      stack_trace := some ⟨sect.take 1000⟩,
      log_snippet := some ⟨sect.take 500⟩ }
  | none =>
    match findContext logL nameL with
    | some ctx =>
      { test_name := ⟨nameL⟩, job_name := jobName, log_snippet := some ⟨ctx.take 500⟩ }
    | none => { test_name := ⟨nameL⟩, job_name := jobName }

/-- The primary extraction results: deduplicated FAILED + ERROR captures
(ANSI-stripped, first occurrence kept). -/
def primaryNames (log_text : String) : List (List Char) :=
  dedupNamesAux []
    ((pytestFindall "FAILED".data log_text.data).map stripAnsiL ++
     (pytestFindall "ERROR".data log_text.data).map stripAnsiL)

/-- The short-test-summary fallback results. -/
def stssNames (log_text : String) : List (List Char) :=
  match stssSearch log_text.data with
  | some sect => stssFindall sect
  | none => []

/-- normalize.py `extract_test_failures_from_log`: FAILED/ERROR captures,
dedup, summary-section fallback, then either the synthetic job-level failure
or per-nodeid detail extraction. -/
def extract_test_failures_from_log (log_text : String) (job_name : String) :
    List TestFailure :=
  let uniq2 :=
    if (primaryNames log_text).isEmpty then stssNames log_text
    else primaryNames log_text
  if uniq2.isEmpty then
    [{ test_name := job_name, job_name := job_name,
       error_message := some "Job failed without pytest test names",
       log_snippet := some ⟨log_text.data.drop (log_text.data.length - 500)⟩ }]
  else uniq2.map (fun n => extractDetail log_text.data job_name n)

theorem one_le_extract_aux (u2 : List (List Char)) (syn : TestFailure)
    (f : List Char → TestFailure) :
    1 ≤ (if u2.isEmpty then [syn] else u2.map f).length := by
  cases u2 <;> simp

/-- C4: the parser is total and always returns at least one failure; when
neither the pytest patterns nor the summary-section fallback find any test
name (including on the empty log), it returns exactly one synthetic job-level
failure carrying the sentinel message and the last 500 characters of the
log. -/
theorem c4_parser_fallback :
    (∀ log_text job_name : String,
      1 ≤ (extract_test_failures_from_log log_text job_name).length) ∧
    (∀ log_text job_name : String,
      primaryNames log_text = [] → stssNames log_text = [] →
      extract_test_failures_from_log log_text job_name =
        [{ test_name := job_name, job_name := job_name,
           error_message := some "Job failed without pytest test names",
           stack_trace := none,
           log_snippet := some ⟨log_text.data.drop (log_text.data.length - 500)⟩ }]) := by
  constructor
  · intro log_text job_name
    unfold extract_test_failures_from_log
    exact one_le_extract_aux _ _ _
  · intro log_text job_name hp hs
    unfold extract_test_failures_from_log
    rw [hp, hs]
    rfl

/-- Witness for C4: on the empty log the parser returns exactly the synthetic
job-level failure with the empty snippet. -/
theorem c4_parser_fallback_witness :
    extract_test_failures_from_log "" "CI Job" =
      [{ test_name := "CI Job", job_name := "CI Job",
         error_message := some "Job failed without pytest test names",
         stack_trace := none, log_snippet := some "" }] ∧
    1 ≤ (extract_test_failures_from_log "" "CI Job").length := by
  constructor
  · exact c4_parser_fallback.2 "" "CI Job" rfl rfl
  · exact c4_parser_fallback.1 "" "CI Job"

/-! ### C9: the ANSI / Buildkite-noise tolerance scenario -/

/-- The literal log line of the spec scenario. -/
def c9Line : String :=
  "_bk;t=1769067604900\x1b[31mFAILED\x1b[0m tests/v1/distributed/test_dbo.py::\x1b[1mtest_dbo_dp_ep_gsm8k[deepep_low_latency]\x1b[0m - AssertionError: accuracy too low"

/-- C9: for every job name, the parser extracts exactly one failure from the
noisy line, and its `test_name` is the ANSI-stripped nodeid. -/
theorem c9_parser_ansi_noise (job_name : String) :
    (extract_test_failures_from_log c9Line job_name).length = 1 ∧
    (extract_test_failures_from_log c9Line job_name).map (fun f => f.test_name) =
      ["tests/v1/distributed/test_dbo.py::test_dbo_dp_ep_gsm8k[deepep_low_latency]"] := by
  exact ⟨rfl, rfl⟩

/-! ## normalize.py — find_test_outcome_in_log (C10) -/

/-- The return dict of `find_test_outcome_in_log`. -/
structure TestOutcomeResult where
  found : Bool
  status : String
  error_message : Option String
  log_excerpt : Option String
deriving DecidableEq

/-- `(?:^WORD {escaped}|^{escaped}\s+WORD)` under `re.MULTILINE`: some
position at a line start matches either form (the boolean argument tracks
being at a line start). -/
def markerAux (word nodeid : List Char) : List Char → Bool → Bool
  | [], _ => false
  | c :: t, atStart =>
    (atStart && (formA word nodeid (c :: t) || formB word nodeid (c :: t))) ||
      markerAux word nodeid t (c = '\n')
where
  formA (word nodeid s : List Char) : Bool :=
    s.take (word.length + 1 + nodeid.length) = word ++ ' ' :: nodeid
  formB (word nodeid s : List Char) : Bool :=
    s.take nodeid.length = nodeid &&
      (let r := s.drop nodeid.length
       let ws := r.takeWhile isSpaceC
       !ws.isEmpty && ((r.drop ws.length).take word.length = word))

def hasStatusMarker (word : List Char) (log nodeid : List Char) : Bool :=
  markerAux word nodeid log true

/-- normalize.py `find_test_outcome_in_log`: FAILED checked first, then
ERROR, then PASSED; failing outcomes reuse the extraction logic and take the
first extracted failure with the matching nodeid. -/
def find_test_outcome_in_log (log_text : String) (test_nodeid : String) :
    TestOutcomeResult :=
  if hasStatusMarker "FAILED".data log_text.data test_nodeid.data then
    match (extract_test_failures_from_log log_text "").find?
        (fun f => decide (f.test_name = test_nodeid)) with
    | some f =>
      { found := true, status := "fail", error_message := f.error_message,
        log_excerpt := f.log_snippet }
    | none =>
      { found := true, status := "fail", error_message := none, log_excerpt := none }
  else if hasStatusMarker "ERROR".data log_text.data test_nodeid.data then
    match (extract_test_failures_from_log log_text "").find?
        (fun f => decide (f.test_name = test_nodeid)) with
    | some f =>
      { found := true, status := "fail", error_message := f.error_message,
        log_excerpt := f.log_snippet }
    | none =>
      { found := true, status := "fail", error_message := none, log_excerpt := none }
  else if hasStatusMarker "PASSED".data log_text.data test_nodeid.data then
    { found := true, status := "pass", error_message := none, log_excerpt := none }
  else
    { found := false, status := "unknown", error_message := none, log_excerpt := none }

/-- C10: the outcome status is always one of pass / fail / unknown; a FAILED
or ERROR marker dominates a PASSED marker for the same nodeid (fail wins,
found true); and not-found implies status unknown. -/
theorem c10_outcome_fail_dominates (log_text test_nodeid : String) :
    ((find_test_outcome_in_log log_text test_nodeid).status = "pass" ∨
     (find_test_outcome_in_log log_text test_nodeid).status = "fail" ∨
     (find_test_outcome_in_log log_text test_nodeid).status = "unknown") ∧
    ((hasStatusMarker "FAILED".data log_text.data test_nodeid.data = true ∨
      hasStatusMarker "ERROR".data log_text.data test_nodeid.data = true) →
      hasStatusMarker "PASSED".data log_text.data test_nodeid.data = true →
      (find_test_outcome_in_log log_text test_nodeid).status = "fail" ∧
      (find_test_outcome_in_log log_text test_nodeid).found = true) ∧
    ((find_test_outcome_in_log log_text test_nodeid).found = false →
      (find_test_outcome_in_log log_text test_nodeid).status = "unknown") := by
  unfold find_test_outcome_in_log
  refine ⟨?_, ?_, ?_⟩
  · split
    · split <;> simp
    · split
      · split <;> simp
      · split <;> simp
  · intro hfe _
    split
    · split <;> simp
    · next hF =>
      rcases hfe with hf | he
      · exact absurd hf hF
      · rw [if_pos he]
        split <;> simp
  · split
    · split <;> simp
    · split
      · split <;> simp
      · split <;> simp

/-- Witness for C10: a log with both a FAILED and a PASSED marker for the
same nodeid (a retry) yields status "fail". -/
theorem c10_outcome_fail_dominates_witness :
    (find_test_outcome_in_log "FAILED t.py::a\nPASSED t.py::a" "t.py::a").status = "fail" ∧
    (find_test_outcome_in_log "FAILED t.py::a\nPASSED t.py::a" "t.py::a").found = true := by
  exact (c10_outcome_fail_dominates "FAILED t.py::a\nPASSED t.py::a" "t.py::a").2.1
    (Or.inl rfl) rfl

/-! ### C1: idempotence of the fingerprint normalizer

The proof shows that the output of `normalizeFingerprintL` contains no match
of any of the five patterns, so a second application is the identity.  The
freeness of each pattern is established at its own substitution stage and
transported through the later stages: a replacement string never contains a
character that any pattern can start with (a digit or lowercase hex letter),
and every replacement starts with the `<` character, which no pattern can
step over.
-/

theorem scanSubAux_eq (m : List Char → Option (List Char)) (repl : List Char) :
    ∀ (s : List Char) (k : Nat), scanSubAux m repl s k = scanSub m repl (s.drop k) := by
  intro s
  induction s with
  | nil => intro k; cases k <;> rfl
  | cons c t ih =>
    intro k
    cases k with
    | zero => rfl
    | succ k2 => exact ih k2

theorem scanSub_cons_none (m : List Char → Option (List Char)) (repl : List Char)
    (c : Char) (t : List Char) (h : m (c :: t) = none) :
    scanSub m repl (c :: t) = c :: scanSub m repl t := by
  show scanSubAux m repl (c :: t) 0 = _
  rw [scanSubAux, h]
  rfl

theorem drop_sub_length (t rest : List Char) (hsuf : rest <:+ t) :
    t.drop (t.length - rest.length) = rest := by
  obtain ⟨w, hw⟩ := hsuf
  rw [← hw, List.length_append]
  have h2 : w.length + rest.length - rest.length = w.length := by omega
  rw [h2, List.drop_left]

theorem scanSub_cons_some (m : List Char → Option (List Char)) (repl : List Char)
    (c : Char) (t rest : List Char) (h : m (c :: t) = some rest)
    (hsuf : rest <:+ t) :
    scanSub m repl (c :: t) = repl ++ scanSub m repl rest := by
  show scanSubAux m repl (c :: t) 0 = _
  rw [scanSubAux, h]
  dsimp only
  rw [scanSubAux_eq, drop_sub_length t rest hsuf]

theorem scanSubPAux_eq (m : Bool → List Char → Option (List Char)) (repl : List Char) :
    ∀ (s : List Char) (k : Nat), scanSubPAux m repl true s k = scanSubP m repl true (s.drop k) ∧
      ∀ b, scanSubPAux m repl b s (k + 1) = scanSubP m repl true (s.drop (k + 1)) := by
  intro s
  induction s with
  | nil =>
    intro k
    refine ⟨?_, fun b => ?_⟩ <;> cases k <;> rfl
  | cons c t ih =>
    intro k
    refine ⟨?_, fun b => (ih k).1⟩
    cases k with
    | zero => rfl
    | succ k2 => exact (ih k2).1

theorem scanSubP_cons_none (m : Bool → List Char → Option (List Char)) (repl : List Char)
    (b : Bool) (c : Char) (t : List Char) (h : m b (c :: t) = none) :
    scanSubP m repl b (c :: t) = c :: scanSubP m repl (isWordC c) t := by
  show scanSubPAux m repl b (c :: t) 0 = _
  rw [scanSubPAux, h]
  rfl

theorem scanSubP_cons_some (m : Bool → List Char → Option (List Char)) (repl : List Char)
    (b : Bool) (c : Char) (t rest : List Char) (h : m b (c :: t) = some rest)
    (hsuf : rest <:+ t) :
    scanSubP m repl b (c :: t) = repl ++ scanSubP m repl true rest := by
  show scanSubPAux m repl b (c :: t) 0 = _
  rw [scanSubPAux, h]
  dsimp only
  rw [(scanSubPAux_eq m repl t (t.length - rest.length)).1, drop_sub_length t rest hsuf]

/-! Matcher soundness: each successful match consumes a nonempty prefix of a
known shape. -/

theorem chompN_sound (p : Char → Bool) :
    ∀ (n : Nat) (s r : List Char), chompN p n s = some r →
      ∃ u, s = u ++ r ∧ u.length = n ∧ ∀ c ∈ u, p c = true := by
  intro n
  induction n with
  | zero =>
    intro s r h
    rw [chompN] at h
    exact ⟨[], by simpa using Option.some_inj.mp h, rfl, by simp⟩
  | succ n ih =>
    intro s r h
    cases s with
    | nil => exact absurd h (by rw [chompN]; simp)
    | cons c t =>
      rw [chompN] at h
      split at h
      · obtain ⟨u, hu1, hu2, hu3⟩ := ih t r h
        refine ⟨c :: u, by rw [List.cons_append, ← hu1], by simp [hu2], ?_⟩
        intro d hd
        rcases List.mem_cons.mp hd with rfl | hd2
        · assumption
        · exact hu3 d hd2
      · exact absurd h (by simp)

theorem chompSeq_sound :
    ∀ (specs : List ((Char → Bool) × Nat)) (s r : List Char),
      chompSeq specs s = some r → ∃ u, s = u ++ r := by
  intro specs
  induction specs with
  | nil =>
    intro s r h
    rw [chompSeq] at h
    exact ⟨[], by simpa using Option.some_inj.mp h⟩
  | cons pr specs ih =>
    intro s r h
    rw [chompSeq] at h
    rcases hc : chompN pr.1 pr.2 s with _ | s1
    · rw [hc] at h
      exact absurd h (by simp)
    · rw [hc] at h
      replace h : chompSeq specs s1 = some r := h
      obtain ⟨u1, hu1, _, _⟩ := chompN_sound pr.1 pr.2 s s1 hc
      obtain ⟨u2, hu2⟩ := ih s1 r h
      exact ⟨u1 ++ u2, by rw [hu1, hu2, List.append_assoc]⟩

theorem chompSeq_head_start (p : Char → Bool) (n : Nat)
    (specs : List ((Char → Bool) × Nat)) (c : Char) (t r : List Char)
    (h : chompSeq ((p, n + 1) :: specs) (c :: t) = some r) : p c = true := by
  rw [chompSeq, chompN] at h
  by_contra hp
  rw [if_neg (by simpa using hp)] at h
  simp at h

theorem chompSeq_head_consume (p : Char → Bool) (n : Nat)
    (specs : List ((Char → Bool) × Nat)) (s r : List Char)
    (h : chompSeq ((p, n + 1) :: specs) s = some r) :
    ∃ w, w ≠ [] ∧ s = w ++ r := by
  rw [chompSeq] at h
  rcases hc : chompN p (n + 1) s with _ | s1
  · rw [hc] at h; exact absurd h (by simp)
  · rw [hc] at h
    replace h : chompSeq specs s1 = some r := h
    obtain ⟨u1, hu1, hlen, _⟩ := chompN_sound p (n + 1) s s1 hc
    obtain ⟨u2, hu2⟩ := chompSeq_sound specs s1 r h
    refine ⟨u1 ++ u2, ?_, by rw [hu1, hu2, List.append_assoc]⟩
    intro hnil
    rw [List.append_eq_nil] at hnil
    rw [hnil.1] at hlen
    simp at hlen

theorem drop_takeWhile_length (p : Char → Bool) (s : List Char) :
    s.drop (s.takeWhile p).length = s.dropWhile p := by
  induction s with
  | nil => rfl
  | cons c t ih =>
    by_cases hc : p c
    · rw [List.takeWhile_cons_of_pos hc, List.dropWhile_cons_of_pos hc]
      simpa using ih
    · rw [List.takeWhile_cons_of_neg hc, List.dropWhile_cons_of_neg hc]
      rfl

theorem matchAddrAt_sound (s r : List Char) (h : matchAddrAt s = some r) :
    ∃ w, w ≠ [] ∧ s = w ++ r := by
  rcases s with _ | ⟨c0, _ | ⟨c1, _ | ⟨c2, t⟩⟩⟩
  · exact absurd h (by simp [matchAddrAt])
  · exact absurd h (by simp [matchAddrAt])
  · exact absurd h (by simp [matchAddrAt])
  · rw [matchAddrAt] at h
    split at h
    · next hc =>
      obtain ⟨rfl, rfl, _⟩ := hc
      have hr : r = (c2 :: t).dropWhile isHexC := (Option.some_inj.mp h).symm
      refine ⟨'0' :: 'x' :: (c2 :: t).takeWhile isHexC, by simp, ?_⟩
      rw [hr]
      simp only [List.cons_append]
      rw [List.takeWhile_append_dropWhile]
    · exact absurd h (by simp)

theorem matchAddrAt_start (c : Char) (t r : List Char)
    (h : matchAddrAt (c :: t) = some r) : isDigitC c = true := by
  rcases t with _ | ⟨c1, _ | ⟨c2, t2⟩⟩
  · exact absurd h (by simp [matchAddrAt])
  · exact absurd h (by simp [matchAddrAt])
  · rw [matchAddrAt] at h
    split at h
    · next hc => rw [hc.1]; rfl
    · exact absurd h (by simp)

theorem matchFloatAt_true (s : List Char) : matchFloatAt true s = none := rfl

theorem matchIntAt_true (s : List Char) : matchIntAt true s = none := rfl

theorem matchFloatAt_some_false (b : Bool) (s r : List Char)
    (h : matchFloatAt b s = some r) : b = false := by
  cases b
  · rfl
  · rw [matchFloatAt_true] at h; exact absurd h (by simp)

theorem matchIntAt_some_false (b : Bool) (s r : List Char)
    (h : matchIntAt b s = some r) : b = false := by
  cases b
  · rfl
  · rw [matchIntAt_true] at h; exact absurd h (by simp)

theorem matchIntAt_sound (s r : List Char) (h : matchIntAt false s = some r) :
    ∃ d, d ≠ [] ∧ (∀ c ∈ d, isDigitC c = true) ∧ s = d ++ r ∧
      (r = [] ∨ ∃ h2 rt, r = h2 :: rt ∧ isWordC h2 = false) := by
  unfold matchIntAt at h
  simp only [Bool.false_eq_true, if_false] at h
  split at h
  · exact absurd h (by simp)
  · next hne =>
    rw [drop_takeWhile_length] at h
    refine ⟨s.takeWhile isDigitC, by simpa [List.isEmpty_iff] using hne,
      fun c hc => List.mem_takeWhile_imp hc, ?_, ?_⟩
    · rcases hd : s.dropWhile isDigitC with _ | ⟨c2, t2⟩ <;> rw [hd] at h
      · replace h : some ([] : List Char) = some r := h
        have hr : r = [] := (Option.some_inj.mp h).symm
        rw [hr, List.append_nil]
        calc s = s.takeWhile isDigitC ++ s.dropWhile isDigitC :=
              (List.takeWhile_append_dropWhile isDigitC s).symm
          _ = s.takeWhile isDigitC := by rw [hd, List.append_nil]
      · replace h : (if isWordC c2 = true then none else some (c2 :: t2)) = some r := h
        split at h
        · exact absurd h (by simp)
        · have hr : r = c2 :: t2 := (Option.some_inj.mp h).symm
          rw [hr, ← hd]
          exact (List.takeWhile_append_dropWhile isDigitC s).symm
    · rcases hd : s.dropWhile isDigitC with _ | ⟨c2, t2⟩ <;> rw [hd] at h
      · replace h : some ([] : List Char) = some r := h
        exact Or.inl (Option.some_inj.mp h).symm
      · replace h : (if isWordC c2 = true then none else some (c2 :: t2)) = some r := h
        split at h
        · exact absurd h (by simp)
        · next hw =>
          exact Or.inr ⟨c2, t2, (Option.some_inj.mp h).symm, by simpa using hw⟩

theorem matchFloatAt_sound (s r : List Char) (h : matchFloatAt false s = some r) :
    ∃ d1 d2, d1 ≠ [] ∧ d2 ≠ [] ∧ (∀ c ∈ d1, isDigitC c = true) ∧
      (∀ c ∈ d2, isDigitC c = true) ∧ s = d1 ++ '.' :: (d2 ++ r) ∧
      (r = [] ∨ ∃ h2 rt, r = h2 :: rt ∧ isWordC h2 = false) := by
  unfold matchFloatAt at h
  simp only [Bool.false_eq_true, if_false] at h
  split at h
  · exact absurd h (by simp)
  · next hne1 =>
    rw [drop_takeWhile_length] at h
    rcases hd : s.dropWhile isDigitC with _ | ⟨c2, u⟩ <;> rw [hd] at h
    · exact absurd h (by simp)
    · replace h : (if c2 = '.' then
          (if (u.takeWhile isDigitC).isEmpty = true then none else
            match u.drop (u.takeWhile isDigitC).length with
            | [] => some []
            | c3 :: t3 => if isWordC c3 = true then none else some (c3 :: t3))
          else none) = some r := h
      split at h
      · next hdot =>
        subst hdot
        split at h
        · exact absurd h (by simp)
        · next hne2 =>
          rw [drop_takeWhile_length] at h
          refine ⟨s.takeWhile isDigitC, u.takeWhile isDigitC,
            by simpa [List.isEmpty_iff] using hne1,
            by simpa [List.isEmpty_iff] using hne2,
            fun c hc => List.mem_takeWhile_imp hc,
            fun c hc => List.mem_takeWhile_imp hc, ?_, ?_⟩
          · have hs : s = s.takeWhile isDigitC ++ '.' :: u := by
              calc s = s.takeWhile isDigitC ++ s.dropWhile isDigitC :=
                    (List.takeWhile_append_dropWhile isDigitC s).symm
                _ = s.takeWhile isDigitC ++ '.' :: u := by rw [hd]
            rw [hs]
            congr 2
            rcases hd2 : u.dropWhile isDigitC with _ | ⟨c3, t3⟩ <;> rw [hd2] at h
            · replace h : some ([] : List Char) = some r := h
              have hr : r = [] := (Option.some_inj.mp h).symm
              rw [hr, List.append_nil]
              calc u = u.takeWhile isDigitC ++ u.dropWhile isDigitC :=
                    (List.takeWhile_append_dropWhile isDigitC u).symm
                _ = u.takeWhile isDigitC := by rw [hd2, List.append_nil]
            · replace h : (if isWordC c3 = true then none else some (c3 :: t3)) = some r := h
              split at h
              · exact absurd h (by simp)
              · have hr : r = c3 :: t3 := (Option.some_inj.mp h).symm
                rw [hr, ← hd2]
                exact (List.takeWhile_append_dropWhile isDigitC u).symm
          · rcases hd2 : u.dropWhile isDigitC with _ | ⟨c3, t3⟩ <;> rw [hd2] at h
            · replace h : some ([] : List Char) = some r := h
              exact Or.inl (Option.some_inj.mp h).symm
            · replace h : (if isWordC c3 = true then none else some (c3 :: t3)) = some r := h
              split at h
              · exact absurd h (by simp)
              · next hw =>
                exact Or.inr ⟨c3, t3, (Option.some_inj.mp h).symm, by simpa using hw⟩
      · exact absurd h (by simp)

/-- `SubRel Q repl s u`: `u` is obtained from `s` by replacing some
non-overlapping matches of `Q` (each firing at the head of the suffix where
it is applied) by `repl`. -/
inductive SubRel (Q : List Char → Option (List Char)) (repl : List Char) :
    List Char → List Char → Prop
  | nil : SubRel Q repl [] []
  | keep (c : Char) {t u : List Char} :
      SubRel Q repl t u → SubRel Q repl (c :: t) (c :: u)
  | rep {s rest u : List Char} : Q s = some rest → SubRel Q repl rest u →
      SubRel Q repl s (repl ++ u)

theorem subRel_scanSub_aux (Q : List Char → Option (List Char)) (repl : List Char)
    (hsuf : ∀ (c : Char) (t rest : List Char), Q (c :: t) = some rest → rest <:+ t) :
    ∀ (n : Nat) (s : List Char), s.length ≤ n → SubRel Q repl s (scanSub Q repl s) := by
  intro n
  induction n with
  | zero =>
    intro s hs
    have hnil : s = [] := List.eq_nil_of_length_eq_zero (by omega)
    subst hnil
    exact SubRel.nil
  | succ n ih =>
    intro s hs
    cases s with
    | nil => exact SubRel.nil
    | cons c t =>
      rcases hm : Q (c :: t) with _ | rest
      · rw [scanSub_cons_none Q repl c t hm]
        exact SubRel.keep c (ih t (by simp at hs; omega))
      · have hs2 := hsuf c t rest hm
        rw [scanSub_cons_some Q repl c t rest hm hs2]
        refine SubRel.rep hm (ih rest ?_)
        have hl := List.IsSuffix.length_le hs2
        simp at hs
        omega

theorem subRel_scanSub (Q : List Char → Option (List Char)) (repl : List Char)
    (hsuf : ∀ (c : Char) (t rest : List Char), Q (c :: t) = some rest → rest <:+ t)
    (s : List Char) : SubRel Q repl s (scanSub Q repl s) :=
  subRel_scanSub_aux Q repl hsuf s.length s (le_refl _)

theorem subRelP_scanSubP_aux (m : Bool → List Char → Option (List Char)) (repl : List Char)
    (hfalse : ∀ (b : Bool) (s r : List Char), m b s = some r → m false s = some r)
    (hsuf : ∀ (b : Bool) (c : Char) (t rest : List Char),
      m b (c :: t) = some rest → rest <:+ t) :
    ∀ (n : Nat) (b : Bool) (s : List Char), s.length ≤ n →
      SubRel (m false) repl s (scanSubP m repl b s) := by
  intro n
  induction n with
  | zero =>
    intro b s hs
    have hnil : s = [] := List.eq_nil_of_length_eq_zero (by omega)
    subst hnil
    exact SubRel.nil
  | succ n ih =>
    intro b s hs
    cases s with
    | nil => exact SubRel.nil
    | cons c t =>
      rcases hm : m b (c :: t) with _ | rest
      · rw [scanSubP_cons_none m repl b c t hm]
        exact SubRel.keep c (ih (isWordC c) t (by simp at hs; omega))
      · have hs2 := hsuf b c t rest hm
        rw [scanSubP_cons_some m repl b c t rest hm hs2]
        refine SubRel.rep (hfalse b _ _ hm) (ih true rest ?_)
        have hl := List.IsSuffix.length_le hs2
        simp at hs
        omega

theorem subRelP_scanSubP (m : Bool → List Char → Option (List Char)) (repl : List Char)
    (hfalse : ∀ (b : Bool) (s r : List Char), m b s = some r → m false s = some r)
    (hsuf : ∀ (b : Bool) (c : Char) (t rest : List Char),
      m b (c :: t) = some rest → rest <:+ t)
    (b : Bool) (s : List Char) : SubRel (m false) repl s (scanSubP m repl b s) :=
  subRelP_scanSubP_aux m repl hfalse hsuf s.length b s (le_refl _)

/-- Some suffix of `s` has a match of `m` at its head. -/
def hasMatch (m : List Char → Option (List Char)) : List Char → Bool
  | [] => (m []).isSome
  | c :: t => (m (c :: t)).isSome || hasMatch m t

/-- As `hasMatch`, threading the previous-character-is-word flag. -/
def hasMatchP (m : Bool → List Char → Option (List Char)) : Bool → List Char → Bool
  | b, [] => (m b []).isSome
  | b, c :: t => (m b (c :: t)).isSome || hasMatchP m (isWordC c) t

theorem hasMatch_suffix (m : List Char → Option (List Char)) :
    ∀ (u v : List Char), hasMatch m (u ++ v) = false → hasMatch m v = false := by
  intro u
  induction u with
  | nil => exact fun v h => h
  | cons c u2 ih =>
    intro v h
    rw [List.cons_append, hasMatch, Bool.or_eq_false_iff] at h
    exact ih v h.2

theorem hasMatchP_suffix (m : Bool → List Char → Option (List Char)) :
    ∀ (u : List Char) (b : Bool) (v : List Char), hasMatchP m b (u ++ v) = false →
      hasMatchP m (u.foldl (fun _ c => isWordC c) b) v = false := by
  intro u
  induction u with
  | nil => exact fun b v h => h
  | cons c u2 ih =>
    intro b v h
    rw [List.cons_append, hasMatchP, Bool.or_eq_false_iff] at h
    exact ih (isWordC c) v h.2

theorem hasMatch_append_bad (m : List Char → Option (List Char)) (startP : Char → Bool)
    (hstart : ∀ (c : Char) (t r : List Char), m (c :: t) = some r → startP c = true) :
    ∀ (w : List Char), (∀ c ∈ w, startP c = false) →
      ∀ z, hasMatch m (w ++ z) = hasMatch m z := by
  intro w
  induction w with
  | nil => exact fun _ z => rfl
  | cons a w2 ih =>
    intro hw z
    rw [List.cons_append, hasMatch]
    have hfail : (m (a :: (w2 ++ z))).isSome = false := by
      rcases hM : m (a :: (w2 ++ z)) with _ | r
      · rfl
      · have h1 := hstart a (w2 ++ z) r hM
        have h2 := hw a (List.mem_cons_self a w2)
        rw [h2] at h1
        exact absurd h1 (by simp)
    rw [hfail, Bool.false_or]
    exact ih (fun c hc => hw c (List.mem_cons_of_mem a hc)) z

theorem hasMatchP_numRepl_append (m : Bool → List Char → Option (List Char))
    (hstart : ∀ (b : Bool) (c : Char) (t r : List Char),
      m b (c :: t) = some r → isDigitC c = true) :
    ∀ (z : List Char) (b : Bool),
      hasMatchP m b (numRepl ++ z) = hasMatchP m false z := by
  have hfail : ∀ (b2 : Bool) (c : Char) (t : List Char), isDigitC c = false →
      (m b2 (c :: t)).isSome = false := by
    intro b2 c t hc
    rcases hM : m b2 (c :: t) with _ | r
    · rfl
    · have h1 := hstart b2 c t r hM
      rw [hc] at h1
      exact absurd h1 (by simp)
  intro z b
  rw [show numRepl ++ z = '<' :: 'N' :: 'U' :: 'M' :: '>' :: z from rfl]
  rw [hasMatchP, hfail b '<' _ rfl, Bool.false_or,
    show isWordC '<' = false from rfl]
  rw [hasMatchP, hfail false 'N' _ rfl, Bool.false_or,
    show isWordC 'N' = true from rfl]
  rw [hasMatchP, hfail true 'U' _ rfl, Bool.false_or,
    show isWordC 'U' = true from rfl]
  rw [hasMatchP, hfail true 'M' _ rfl, Bool.false_or,
    show isWordC 'M' = true from rfl]
  rw [hasMatchP, hfail true '>' _ rfl, Bool.false_or,
    show isWordC '>' = false from rfl]

/-! Transport machinery for C1: a match of an earlier pattern in the output of
a later substitution pulls back to a match in its input.  The key structural
facts are that every replacement string starts with `<`, that no replacement
character is a digit or a lowercase hex character, and that every matcher's
first consumed character is a digit or a lowercase hex character. -/

theorem suffix_of_consume {c : Char} {t r w : List Char} (hw : w ≠ [])
    (he : c :: t = w ++ r) : r <:+ t := by
  cases w with
  | nil => exact absurd rfl hw
  | cons a w2 =>
    rw [List.cons_append] at he
    injection he with h1 h2
    exact ⟨w2, h2.symm⟩

theorem chompN_of (p : Char → Bool) :
    ∀ (w x : List Char), (∀ c ∈ w, p c = true) → chompN p w.length (w ++ x) = some x := by
  intro w
  induction w with
  | nil => exact fun x _ => rfl
  | cons c w2 ih =>
    intro x hw
    rw [List.length_cons, List.cons_append, chompN,
      if_pos (hw c (List.mem_cons_self c w2))]
    exact ih x fun d hd => hw d (List.mem_cons_of_mem c hd)

theorem chompSeq_decomp :
    ∀ (specs : List ((Char → Bool) × Nat)) (s r : List Char),
      chompSeq specs s = some r →
      ∃ w, s = w ++ r ∧ (∀ c ∈ w, ∃ pn ∈ specs, pn.1 c = true) ∧
        ∀ x, chompSeq specs (w ++ x) = some x := by
  intro specs
  induction specs with
  | nil =>
    intro s r h
    rw [chompSeq] at h
    exact ⟨[], by simpa using Option.some_inj.mp h, by simp, fun x => rfl⟩
  | cons pr specs ih =>
    intro s r h
    rw [chompSeq] at h
    rcases hc : chompN pr.1 pr.2 s with _ | s1
    · rw [hc] at h; exact absurd h (by simp)
    · rw [hc] at h
      replace h : chompSeq specs s1 = some r := h
      obtain ⟨u1, hu1, hlen, hchars1⟩ := chompN_sound pr.1 pr.2 s s1 hc
      obtain ⟨w2, hw2, hchars2, hall⟩ := ih s1 r h
      refine ⟨u1 ++ w2, by rw [hu1, hw2, List.append_assoc], ?_, ?_⟩
      · intro c hcm
        rcases List.mem_append.mp hcm with h1 | h2
        · exact ⟨pr, List.mem_cons_self pr specs, hchars1 c h1⟩
        · obtain ⟨pn, hpn, hp⟩ := hchars2 c h2
          exact ⟨pn, List.mem_cons_of_mem pr hpn, hp⟩
      · intro x
        rw [List.append_assoc, chompSeq]
        have hn : chompN pr.1 pr.2 (u1 ++ (w2 ++ x)) = some (w2 ++ x) := by
          rw [← hlen]
          exact chompN_of pr.1 u1 (w2 ++ x) hchars1
        rw [hn]
        exact hall x

/-- The characters a UUID match can consume. -/
def uuidAlpha (c : Char) : Bool := isLowerHexC c || c = '-'

/-- The characters a timestamp match can consume. -/
def tsAlpha (c : Char) : Bool :=
  isDigitC c || c = '-' || c = 'T' || c = ' ' || c = ':'

/-- The characters a memory-address match can consume. -/
def addrAlpha (c : Char) : Bool := c = '0' || c = 'x' || isHexC c

theorem uuidSpecs_alpha : ∀ pn ∈ uuidSpecs, ∀ c, pn.1 c = true → uuidAlpha c = true := by
  intro pn hpn c hc
  simp only [uuidSpecs, List.mem_cons, List.not_mem_nil, or_false] at hpn
  rcases hpn with rfl | rfl | rfl | rfl | rfl | rfl | rfl | rfl | rfl <;>
    simp_all [uuidAlpha]

theorem tsSpecs_alpha : ∀ pn ∈ tsSpecs, ∀ c, pn.1 c = true → tsAlpha c = true := by
  intro pn hpn c hc
  simp only [tsSpecs, List.mem_cons, List.not_mem_nil, or_false] at hpn
  rcases hpn with rfl | rfl | rfl | rfl | rfl | rfl | rfl | rfl | rfl | rfl | rfl <;>
    simp_all [tsAlpha] <;> tauto

/-- An output prefix over an alphabet that excludes the replacement-string head
is literally a prefix of the input. -/
theorem subRel_pullback (Q : List Char → Option (List Char)) (repl : List Char)
    (A : Char → Bool) (hrepl : ∃ r0 rt, repl = r0 :: rt ∧ A r0 = false) :
    ∀ {x y : List Char}, SubRel Q repl x y →
      ∀ (w z : List Char), y = w ++ z → (∀ c ∈ w, A c = true) →
        ∃ z2, x = w ++ z2 := by
  intro x y h
  induction h with
  | nil =>
    intro w z hyz _
    have hw : w = [] := (List.append_eq_nil.mp hyz.symm).1
    exact ⟨[], by rw [hw]; rfl⟩
  | @keep c t u ha ih =>
    intro w z hyz hw
    cases w with
    | nil => exact ⟨c :: t, rfl⟩
    | cons w0 w2 =>
      rw [List.cons_append] at hyz
      injection hyz with h1 h2
      obtain ⟨z2, hz⟩ := ih w2 z h2 (fun d hd => hw d (List.mem_cons_of_mem w0 hd))
      refine ⟨z2, ?_⟩
      rw [List.cons_append, ← hz, h1]
  | @rep s rest u hQ ha ih =>
    intro w z hyz hw
    cases w with
    | nil => exact ⟨s, rfl⟩
    | cons w0 w2 =>
      obtain ⟨r0, rt, hr, hA⟩ := hrepl
      rw [hr, List.cons_append, List.cons_append] at hyz
      injection hyz with h1 h2
      have hA2 := hw w0 (List.mem_cons_self w0 w2)
      rw [← h1, hA] at hA2
      exact absurd hA2 (by simp)

theorem matchUuidAt_decomp (s r : List Char) (h : matchUuidAt s = some r) :
    ∃ w, s = w ++ r ∧ (∀ c ∈ w, uuidAlpha c = true) ∧
      ∀ x, (matchUuidAt (w ++ x)).isSome = true := by
  obtain ⟨w, hw, hchars, hall⟩ := chompSeq_decomp uuidSpecs s r h
  refine ⟨w, hw, ?_, ?_⟩
  · intro c hc
    obtain ⟨pn, hpn, hp⟩ := hchars c hc
    exact uuidSpecs_alpha pn hpn c hp
  · intro x
    show (chompSeq uuidSpecs (w ++ x)).isSome = true
    rw [hall x]
    rfl

theorem matchTsAt_decomp (s r : List Char) (h : matchTsAt s = some r) :
    ∃ w, s = w ++ r ∧ (∀ c ∈ w, tsAlpha c = true) ∧
      ∀ x, (matchTsAt (w ++ x)).isSome = true := by
  obtain ⟨w, hw, hchars, hall⟩ := chompSeq_decomp tsSpecs s r h
  refine ⟨w, hw, ?_, ?_⟩
  · intro c hc
    obtain ⟨pn, hpn, hp⟩ := hchars c hc
    exact tsSpecs_alpha pn hpn c hp
  · intro x
    show (chompSeq tsSpecs (w ++ x)).isSome = true
    rw [hall x]
    rfl

theorem matchAddrAt_decomp (s r : List Char) (h : matchAddrAt s = some r) :
    ∃ w, s = w ++ r ∧ (∀ c ∈ w, addrAlpha c = true) ∧
      ∀ x, (matchAddrAt (w ++ x)).isSome = true := by
  rcases s with _ | ⟨c0, _ | ⟨c1, _ | ⟨c2, t⟩⟩⟩
  · exact absurd h (by simp [matchAddrAt])
  · exact absurd h (by simp [matchAddrAt])
  · exact absurd h (by simp [matchAddrAt])
  · rw [matchAddrAt] at h
    split at h
    · next hc =>
      obtain ⟨rfl, rfl, hhex⟩ := hc
      have hr : r = (c2 :: t).dropWhile isHexC := (Option.some_inj.mp h).symm
      refine ⟨'0' :: 'x' :: (c2 :: t).takeWhile isHexC, ?_, ?_, ?_⟩
      · rw [hr]
        simp only [List.cons_append]
        rw [List.takeWhile_append_dropWhile]
      · intro c hcm
        rcases List.mem_cons.mp hcm with rfl | hcm2
        · rfl
        · rcases List.mem_cons.mp hcm2 with rfl | hcm3
          · rfl
          · have h3 := List.mem_takeWhile_imp hcm3
            simp [addrAlpha, h3]
      · intro x
        rw [List.takeWhile_cons_of_pos hhex]
        rw [show ('0' :: 'x' :: c2 :: t.takeWhile isHexC) ++ x =
          '0' :: 'x' :: c2 :: (t.takeWhile isHexC ++ x) from rfl]
        rw [matchAddrAt, if_pos ⟨rfl, rfl, hhex⟩]
        rfl
    · exact absurd h (by simp)

/-! First-character lemmas: every matcher can only fire where a digit or a
lowercase hex character stands. -/

theorem matchUuidAt_start (c : Char) (t r : List Char)
    (h : matchUuidAt (c :: t) = some r) : isLowerHexC c = true := by
  have h2 : chompSeq ((isLowerHexC, 7 + 1) :: uuidSpecs.tail) (c :: t) = some r := h
  exact chompSeq_head_start isLowerHexC 7 uuidSpecs.tail c t r h2

theorem matchTsAt_start (c : Char) (t r : List Char)
    (h : matchTsAt (c :: t) = some r) : isDigitC c = true := by
  have h2 : chompSeq ((isDigitC, 3 + 1) :: tsSpecs.tail) (c :: t) = some r := h
  exact chompSeq_head_start isDigitC 3 tsSpecs.tail c t r h2

theorem matchIntAt_start (b : Bool) (c : Char) (t r : List Char)
    (h : matchIntAt b (c :: t) = some r) : isDigitC c = true := by
  have hb := matchIntAt_some_false b (c :: t) r h
  subst hb
  obtain ⟨d, hne, hdig, hsplit, _⟩ := matchIntAt_sound (c :: t) r h
  cases d with
  | nil => exact absurd rfl hne
  | cons d0 d2 =>
    rw [List.cons_append] at hsplit
    injection hsplit with h1 _
    rw [h1]
    exact hdig d0 (List.mem_cons_self d0 d2)

theorem matchFloatAt_start (b : Bool) (c : Char) (t r : List Char)
    (h : matchFloatAt b (c :: t) = some r) : isDigitC c = true := by
  have hb := matchFloatAt_some_false b (c :: t) r h
  subst hb
  obtain ⟨d1, d2, hne1, _, hdig1, _, hsplit, _⟩ := matchFloatAt_sound (c :: t) r h
  cases d1 with
  | nil => exact absurd rfl hne1
  | cons e0 e2 =>
    rw [List.cons_append] at hsplit
    injection hsplit with h1 _
    rw [h1]
    exact hdig1 e0 (List.mem_cons_self e0 e2)

/-- Start-character class shared by all five matchers. -/
def startAlpha (c : Char) : Bool := isDigitC c || isLowerHexC c

theorem matchUuidAt_startAlpha (c : Char) (t r : List Char)
    (h : matchUuidAt (c :: t) = some r) : startAlpha c = true := by
  rw [startAlpha, matchUuidAt_start c t r h, Bool.or_true]

theorem matchTsAt_startAlpha (c : Char) (t r : List Char)
    (h : matchTsAt (c :: t) = some r) : startAlpha c = true := by
  rw [startAlpha, matchTsAt_start c t r h, Bool.true_or]

theorem matchAddrAt_startAlpha (c : Char) (t r : List Char)
    (h : matchAddrAt (c :: t) = some r) : startAlpha c = true := by
  rw [startAlpha, matchAddrAt_start c t r h, Bool.true_or]

/-! Fire transport: a match of an earlier pattern at the head of a
substitution output fires at the head of the substitution input as well. -/

theorem fire_transport_uuid (Q : List Char → Option (List Char)) (repl : List Char)
    (hrepl : ∃ rt, repl = '<' :: rt) {x y : List Char} (hrel : SubRel Q repl x y)
    (h : (matchUuidAt y).isSome = true) : (matchUuidAt x).isSome = true := by
  rcases hM : matchUuidAt y with _ | r
  · rw [hM] at h; exact absurd h (by simp)
  · obtain ⟨w, hw, hchars, hall⟩ := matchUuidAt_decomp y r hM
    obtain ⟨rt, hr⟩ := hrepl
    obtain ⟨z2, hz⟩ := subRel_pullback Q repl uuidAlpha
      ⟨'<', rt, hr, rfl⟩ hrel w r hw hchars
    rw [hz]
    exact hall z2

theorem fire_transport_ts (Q : List Char → Option (List Char)) (repl : List Char)
    (hrepl : ∃ rt, repl = '<' :: rt) {x y : List Char} (hrel : SubRel Q repl x y)
    (h : (matchTsAt y).isSome = true) : (matchTsAt x).isSome = true := by
  rcases hM : matchTsAt y with _ | r
  · rw [hM] at h; exact absurd h (by simp)
  · obtain ⟨w, hw, hchars, hall⟩ := matchTsAt_decomp y r hM
    obtain ⟨rt, hr⟩ := hrepl
    obtain ⟨z2, hz⟩ := subRel_pullback Q repl tsAlpha
      ⟨'<', rt, hr, rfl⟩ hrel w r hw hchars
    rw [hz]
    exact hall z2

theorem fire_transport_addr (Q : List Char → Option (List Char)) (repl : List Char)
    (hrepl : ∃ rt, repl = '<' :: rt) {x y : List Char} (hrel : SubRel Q repl x y)
    (h : (matchAddrAt y).isSome = true) : (matchAddrAt x).isSome = true := by
  rcases hM : matchAddrAt y with _ | r
  · rw [hM] at h; exact absurd h (by simp)
  · obtain ⟨w, hw, hchars, hall⟩ := matchAddrAt_decomp y r hM
    obtain ⟨rt, hr⟩ := hrepl
    obtain ⟨z2, hz⟩ := subRel_pullback Q repl addrAlpha
      ⟨'<', rt, hr, rfl⟩ hrel w r hw hchars
    rw [hz]
    exact hall z2

theorem hasMatch_suffix_true (m : List Char → Option (List Char)) {r x : List Char}
    (hsuf : r <:+ x) (h : hasMatch m r = true) : hasMatch m x = true := by
  obtain ⟨u, hu⟩ := hsuf
  rcases hx : hasMatch m x with _ | _
  · rw [← hu] at hx
    rw [hasMatch_suffix m u r hx] at h
    exact absurd h (by simp)
  · rfl

/-- Freeness of an earlier pattern is preserved by a later substitution
(contrapositive form: a match in the output transports to the input). -/
theorem hasMatch_transport (m Q : List Char → Option (List Char)) (repl : List Char)
    (hfire : ∀ {x y : List Char}, SubRel Q repl x y →
      (m y).isSome = true → (m x).isSome = true)
    (hstart : ∀ (c : Char) (t r : List Char), m (c :: t) = some r → startAlpha c = true)
    (hreplchars : ∀ c ∈ repl, startAlpha c = false)
    (hQnil : Q [] = none)
    (hsufQ : ∀ (c : Char) (t rest : List Char), Q (c :: t) = some rest → rest <:+ t) :
    ∀ {x y : List Char}, SubRel Q repl x y → hasMatch m y = true → hasMatch m x = true := by
  intro x y hrel
  induction hrel with
  | nil => exact fun h => h
  | @keep c t u ha ih =>
    intro h
    rw [hasMatch] at h ⊢
    rcases Bool.or_eq_true_iff.mp h with h1 | h2
    · exact Bool.or_eq_true_iff.mpr (Or.inl (hfire (SubRel.keep c ha) h1))
    · exact Bool.or_eq_true_iff.mpr (Or.inr (ih h2))
  | @rep s rest u hQ ha ih =>
    intro h
    rw [hasMatch_append_bad m startAlpha hstart repl hreplchars u] at h
    have hrest := ih h
    cases s with
    | nil => rw [hQnil] at hQ; exact absurd hQ (by simp)
    | cons c t =>
      have h1 : rest <:+ t := hsufQ c t rest hQ
      exact hasMatch_suffix_true m (h1.trans (List.suffix_cons c t)) hrest

/-- A non-boundary-guarded substitution leaves no match of its own pattern in
its output. -/
theorem scanSub_free_aux (m : List Char → Option (List Char)) (repl : List Char)
    (hfire : ∀ {x y : List Char}, SubRel m repl x y →
      (m y).isSome = true → (m x).isSome = true)
    (hstart : ∀ (c : Char) (t r : List Char), m (c :: t) = some r → startAlpha c = true)
    (hreplchars : ∀ c ∈ repl, startAlpha c = false)
    (hnil : m [] = none)
    (hsuf : ∀ (c : Char) (t rest : List Char), m (c :: t) = some rest → rest <:+ t) :
    ∀ (n : Nat) (s : List Char), s.length ≤ n →
      hasMatch m (scanSub m repl s) = false := by
  intro n
  induction n with
  | zero =>
    intro s hs
    have h0 : s = [] := List.eq_nil_of_length_eq_zero (by omega)
    subst h0
    rw [show scanSub m repl [] = [] from rfl, hasMatch, hnil]
    rfl
  | succ n ih =>
    intro s hs
    cases s with
    | nil =>
      rw [show scanSub m repl [] = [] from rfl, hasMatch, hnil]
      rfl
    | cons c t =>
      rcases hm : m (c :: t) with _ | rest
      · rw [scanSub_cons_none m repl c t hm, hasMatch]
        have h2 := ih t (by simp at hs; omega)
        rw [h2, Bool.or_false]
        rcases hx : (m (c :: scanSub m repl t)).isSome with _ | _
        · rfl
        · have h3 := hfire (SubRel.keep c (subRel_scanSub m repl hsuf t)) hx
          rw [hm] at h3
          exact absurd h3 (by simp)
      · have hsuf2 := hsuf c t rest hm
        rw [scanSub_cons_some m repl c t rest hm hsuf2,
          hasMatch_append_bad m startAlpha hstart repl hreplchars _]
        refine ih rest ?_
        have h4 := List.IsSuffix.length_le hsuf2
        simp at hs
        omega

theorem scanSub_free (m : List Char → Option (List Char)) (repl : List Char)
    (hfire : ∀ {x y : List Char}, SubRel m repl x y →
      (m y).isSome = true → (m x).isSome = true)
    (hstart : ∀ (c : Char) (t r : List Char), m (c :: t) = some r → startAlpha c = true)
    (hreplchars : ∀ c ∈ repl, startAlpha c = false)
    (hnil : m [] = none)
    (hsuf : ∀ (c : Char) (t rest : List Char), m (c :: t) = some rest → rest <:+ t)
    (s : List Char) : hasMatch m (scanSub m repl s) = false :=
  scanSub_free_aux m repl hfire hstart hreplchars hnil hsuf s.length s (le_refl _)

theorem bool_eq_false {b : Bool} (h : ¬ b = true) : b = false := by
  cases b
  · rfl
  · exact absurd rfl h

theorem isWordC_of_digit (c : Char) (h : isDigitC c = true) : isWordC c = true := by
  rw [isWordC, h]
  simp

/-- Head character is a digit. -/
def headDigit (s : List Char) : Bool :=
  match s with
  | [] => false
  | c :: _ => isDigitC c

theorem headDigit_cons (c : Char) (l : List Char) :
    headDigit (c :: l) = isDigitC c := rfl

/-- A trailing word boundary: end of string or a non-word character. -/
def bdryHead (s : List Char) : Bool :=
  match s with
  | [] => true
  | c :: _ => !(isWordC c)

theorem bdryHead_cons (c : Char) (l : List Char) :
    bdryHead (c :: l) = !(isWordC c) := rfl

/-- Boundary after the maximal digit run. -/
def digitRunBdry (s : List Char) : Bool := bdryHead (s.dropWhile isDigitC)

/-- Success predicate of `matchIntAt false`: a nonempty digit run at the head
followed by a word boundary. -/
def intOk (s : List Char) : Bool := headDigit s && digitRunBdry s

/-- After the first digit run: a dot, a nonempty digit run, a boundary. -/
def dotSplit (s : List Char) : Bool :=
  match s with
  | c :: u => (c = '.') && headDigit u && bdryHead (u.dropWhile isDigitC)
  | [] => false

theorem dotSplit_cons (c : Char) (u : List Char) :
    dotSplit (c :: u) = ((c = '.') && headDigit u && bdryHead (u.dropWhile isDigitC)) := rfl

/-- Success predicate of `matchFloatAt false`. -/
def floatOk (s : List Char) : Bool := headDigit s && dotSplit (s.dropWhile isDigitC)

/-- As `SubRel` for the boundary-guarded patterns, threading the
previous-character flag exactly as `scanSubP` does. -/
inductive SubRelP (m : Bool → List Char → Option (List Char)) (repl : List Char) :
    Bool → List Char → List Char → Prop
  | nil (b : Bool) : SubRelP m repl b [] []
  | keep (b : Bool) (c : Char) {t u : List Char} :
      SubRelP m repl (isWordC c) t u → SubRelP m repl b (c :: t) (c :: u)
  | rep (b : Bool) {s rest u : List Char} : m b s = some rest →
      SubRelP m repl true rest u → SubRelP m repl b s (repl ++ u)

theorem subRelP_rel_aux (m : Bool → List Char → Option (List Char)) (repl : List Char)
    (hsuf : ∀ (b : Bool) (c : Char) (t rest : List Char),
      m b (c :: t) = some rest → rest <:+ t) :
    ∀ (n : Nat) (b : Bool) (s : List Char), s.length ≤ n →
      SubRelP m repl b s (scanSubP m repl b s) := by
  intro n
  induction n with
  | zero =>
    intro b s hs
    have h0 : s = [] := List.eq_nil_of_length_eq_zero (by omega)
    subst h0
    exact SubRelP.nil b
  | succ n ih =>
    intro b s hs
    cases s with
    | nil => exact SubRelP.nil b
    | cons c t =>
      rcases hm : m b (c :: t) with _ | rest
      · rw [scanSubP_cons_none m repl b c t hm]
        exact SubRelP.keep b c (ih (isWordC c) t (by simp at hs; omega))
      · have hs2 := hsuf b c t rest hm
        rw [scanSubP_cons_some m repl b c t rest hm hs2]
        refine SubRelP.rep b hm (ih true rest ?_)
        have hl := List.IsSuffix.length_le hs2
        simp at hs
        omega

theorem subRelP_rel (m : Bool → List Char → Option (List Char)) (repl : List Char)
    (hsuf : ∀ (b : Bool) (c : Char) (t rest : List Char),
      m b (c :: t) = some rest → rest <:+ t)
    (b : Bool) (s : List Char) : SubRelP m repl b s (scanSubP m repl b s) :=
  subRelP_rel_aux m repl hsuf s.length b s (le_refl _)

/-- While the previous-character flag is `true` no replacement can happen, so
the digit run at the head and the character ending it survive unchanged. -/
theorem subRelP_true_decomp (m : Bool → List Char → Option (List Char)) (repl : List Char)
    (hT : ∀ s, m true s = none) :
    ∀ (n : Nat) (t u : List Char), t.length ≤ n → SubRelP m repl true t u →
      t.takeWhile isDigitC = u.takeWhile isDigitC ∧
      ((t.dropWhile isDigitC = [] ∧ u.dropWhile isDigitC = []) ∨
       ∃ (c2 : Char) (t2 u2 : List Char), t.dropWhile isDigitC = c2 :: t2 ∧
         u.dropWhile isDigitC = c2 :: u2 ∧ isDigitC c2 = false ∧
         SubRelP m repl (isWordC c2) t2 u2) := by
  intro n
  induction n with
  | zero =>
    intro t u ht hrel
    have h0 : t = [] := List.eq_nil_of_length_eq_zero (by omega)
    subst h0
    cases hrel with
    | nil => exact ⟨rfl, Or.inl ⟨rfl, rfl⟩⟩
    | rep b hm ha =>
      rw [hT] at hm
      exact absurd hm (by simp)
  | succ n ih =>
    intro t u ht hrel
    cases hrel with
    | nil => exact ⟨rfl, Or.inl ⟨rfl, rfl⟩⟩
    | rep b hm ha =>
      rw [hT] at hm
      exact absurd hm (by simp)
    | @keep b c t2 u2 ha =>
      by_cases hc : isDigitC c = true
      · have hw : isWordC c = true := isWordC_of_digit c hc
        rw [hw] at ha
        obtain ⟨h1, h2⟩ := ih t2 u2 (by simp at ht; omega) ha
        constructor
        · rw [List.takeWhile_cons_of_pos hc, List.takeWhile_cons_of_pos hc, h1]
        · rw [List.dropWhile_cons_of_pos hc, List.dropWhile_cons_of_pos hc]
          exact h2
      · have hc2 : isDigitC c = false := bool_eq_false hc
        refine ⟨?_, Or.inr ⟨c, t2, u2, ?_, ?_, hc2, ha⟩⟩
        · rw [List.takeWhile_cons_of_neg hc, List.takeWhile_cons_of_neg hc]
        · rw [List.dropWhile_cons_of_neg hc]
        · rw [List.dropWhile_cons_of_neg hc]

theorem matchIntAt_isSome (s : List Char) : (matchIntAt false s).isSome = intOk s := by
  cases s with
  | nil => rfl
  | cons c t =>
    rw [intOk, headDigit_cons, digitRunBdry]
    by_cases hc : isDigitC c = true
    · rw [hc, Bool.true_and, List.dropWhile_cons_of_pos hc]
      unfold matchIntAt
      simp only [Bool.false_eq_true, if_false]
      rw [List.takeWhile_cons_of_pos hc, List.isEmpty_cons]
      simp only [Bool.false_eq_true, if_false]
      rw [List.length_cons, List.drop_succ_cons, drop_takeWhile_length]
      rcases hdd : t.dropWhile isDigitC with _ | ⟨c2, t2⟩
      · rfl
      · rw [bdryHead_cons]
        show (if isWordC c2 = true then none else some (c2 :: t2)).isSome = !(isWordC c2)
        by_cases hw2 : isWordC c2 = true
        · rw [if_pos hw2, hw2]
          rfl
        · rw [if_neg hw2, bool_eq_false hw2]
          rfl
    · rw [bool_eq_false hc, Bool.false_and]
      unfold matchIntAt
      simp only [Bool.false_eq_true, if_false]
      rw [List.takeWhile_cons_of_neg hc]
      rfl

theorem matchFloatAt_isSome (s : List Char) : (matchFloatAt false s).isSome = floatOk s := by
  cases s with
  | nil => rfl
  | cons c t =>
    rw [floatOk, headDigit_cons]
    by_cases hc : isDigitC c = true
    · rw [hc, Bool.true_and, List.dropWhile_cons_of_pos hc]
      unfold matchFloatAt
      simp only [Bool.false_eq_true, if_false]
      rw [List.takeWhile_cons_of_pos hc, List.isEmpty_cons]
      simp only [Bool.false_eq_true, if_false]
      rw [List.length_cons, List.drop_succ_cons, drop_takeWhile_length]
      rcases hdd : t.dropWhile isDigitC with _ | ⟨c2, u⟩
      · rfl
      · rw [dotSplit_cons]
        by_cases hdot : c2 = '.'
        · subst hdot
          show (if (List.takeWhile isDigitC u).isEmpty = true then none
            else
              match List.drop (List.takeWhile isDigitC u).length u with
              | [] => some []
              | c3 :: t3 => if isWordC c3 = true then none else some (c3 :: t3)).isSome =
            (decide (('.' : Char) = '.') && headDigit u && bdryHead (List.dropWhile isDigitC u))
          rw [show (decide (('.' : Char) = '.')) = true from rfl, Bool.true_and]
          cases u with
          | nil => rfl
          | cons c3 u2 =>
            rw [headDigit_cons]
            by_cases hc3 : isDigitC c3 = true
            · rw [hc3, Bool.true_and, List.takeWhile_cons_of_pos hc3, List.isEmpty_cons]
              simp only [Bool.false_eq_true, if_false]
              rw [List.length_cons, List.drop_succ_cons, drop_takeWhile_length,
                List.dropWhile_cons_of_pos hc3]
              rcases hd2 : u2.dropWhile isDigitC with _ | ⟨c4, t4⟩
              · rfl
              · rw [bdryHead_cons]
                show (if isWordC c4 = true then none else some (c4 :: t4)).isSome =
                  !(isWordC c4)
                by_cases hw4 : isWordC c4 = true
                · rw [if_pos hw4, hw4]
                  rfl
                · rw [if_neg hw4, bool_eq_false hw4]
                  rfl
            · rw [bool_eq_false hc3, Bool.false_and, List.takeWhile_cons_of_neg hc3]
              rfl
        · show (if c2 = '.' then
              if (List.takeWhile isDigitC u).isEmpty = true then none
              else
                match List.drop (List.takeWhile isDigitC u).length u with
                | [] => some []
                | c3 :: t3 => if isWordC c3 = true then none else some (c3 :: t3)
            else none).isSome =
            (decide (c2 = '.') && headDigit u && bdryHead (List.dropWhile isDigitC u))
          rw [if_neg hdot, decide_eq_false hdot, Bool.false_and, Bool.false_and]
          rfl
    · rw [bool_eq_false hc, Bool.false_and]
      unfold matchFloatAt
      simp only [Bool.false_eq_true, if_false]
      rw [List.takeWhile_cons_of_neg hc]
      rfl

theorem intOk_head_false (c : Char) (l : List Char) (hc : isDigitC c = false) :
    intOk (c :: l) = false := by
  rw [intOk, headDigit_cons, hc, Bool.false_and]

theorem floatOk_head_false (c : Char) (l : List Char) (hc : isDigitC c = false) :
    floatOk (c :: l) = false := by
  rw [floatOk, headDigit_cons, hc, Bool.false_and]

/-- A boundary-guarded substitution cannot create a new `\b\d+\b` match:
the digit run and its boundary survive backwards through the relation. -/
theorem intOk_transport (m : Bool → List Char → Option (List Char))
    (hT : ∀ s, m true s = none) (b : Bool) (x y : List Char)
    (hrel : SubRelP m numRepl b x y) (h : intOk y = true) : intOk x = true := by
  cases hrel with
  | nil => exact h
  | @rep b2 s rest u hm ha =>
    rw [show numRepl ++ u = '<' :: ('N' :: 'U' :: 'M' :: '>' :: u) from rfl] at h
    rw [intOk_head_false '<' _ rfl] at h
    exact absurd h (by simp)
  | @keep b2 c t u ha =>
    rw [intOk, headDigit_cons] at h ⊢
    have hc : isDigitC c = true := by
      rcases hb : isDigitC c with _ | _
      · rw [hb, Bool.false_and] at h
        exact absurd h (by simp)
      · rfl
    rw [hc, Bool.true_and] at h ⊢
    rw [isWordC_of_digit c hc] at ha
    obtain ⟨_, h2⟩ := subRelP_true_decomp m numRepl hT t.length t u (le_refl _) ha
    rw [digitRunBdry, List.dropWhile_cons_of_pos hc] at h ⊢
    rcases h2 with ⟨h2t, h2u⟩ | ⟨c2, t2, u2, h2t, h2u, hc2, _⟩
    · rw [h2t]
      rfl
    · rw [h2t, bdryHead_cons]
      rw [h2u, bdryHead_cons] at h
      exact h

/-- A boundary-guarded substitution cannot create a new `\b\d+\.\d+\b`
match. -/
theorem floatOk_transport (m : Bool → List Char → Option (List Char))
    (hT : ∀ s, m true s = none) (b : Bool) (x y : List Char)
    (hrel : SubRelP m numRepl b x y) (h : floatOk y = true) : floatOk x = true := by
  cases hrel with
  | nil => exact h
  | @rep b2 s rest u hm ha =>
    rw [show numRepl ++ u = '<' :: ('N' :: 'U' :: 'M' :: '>' :: u) from rfl] at h
    rw [floatOk_head_false '<' _ rfl] at h
    exact absurd h (by simp)
  | @keep b2 c t u ha =>
    rw [floatOk, headDigit_cons] at h ⊢
    have hc : isDigitC c = true := by
      rcases hb : isDigitC c with _ | _
      · rw [hb, Bool.false_and] at h
        exact absurd h (by simp)
      · rfl
    rw [hc, Bool.true_and] at h ⊢
    rw [isWordC_of_digit c hc] at ha
    obtain ⟨_, h2⟩ := subRelP_true_decomp m numRepl hT t.length t u (le_refl _) ha
    rw [List.dropWhile_cons_of_pos hc] at h ⊢
    rcases h2 with ⟨h2t, h2u⟩ | ⟨c2, t2, u2, h2t, h2u, hc2, ha2⟩
    · rw [h2u, show dotSplit ([] : List Char) = false from rfl] at h
      exact absurd h (by simp)
    · rw [h2u, dotSplit_cons] at h
      rw [h2t, dotSplit_cons]
      have hdot : decide (c2 = '.') = true := by
        rcases hb : decide (c2 = '.') with _ | _
        · rw [hb, Bool.false_and, Bool.false_and] at h
          exact absurd h (by simp)
        · rfl
      rw [hdot, Bool.true_and] at h ⊢
      have hdotp : c2 = '.' := of_decide_eq_true hdot
      subst hdotp
      rw [show isWordC '.' = false from rfl] at ha2
      cases ha2 with
      | nil =>
        rw [show headDigit ([] : List Char) = false from rfl, Bool.false_and] at h
        exact absurd h (by simp)
      | @rep b3 s3 rest3 u3 hm3 ha3 =>
        rw [show numRepl ++ u3 = '<' :: ('N' :: 'U' :: 'M' :: '>' :: u3) from rfl,
          headDigit_cons, show isDigitC '<' = false from rfl, Bool.false_and] at h
        exact absurd h (by simp)
      | @keep b3 c3 t3 u3 ha3 =>
        rw [headDigit_cons] at h ⊢
        have hc3 : isDigitC c3 = true := by
          rcases hb : isDigitC c3 with _ | _
          · rw [hb, Bool.false_and] at h
            exact absurd h (by simp)
          · rfl
        rw [hc3, Bool.true_and] at h ⊢
        rw [isWordC_of_digit c3 hc3] at ha3
        obtain ⟨_, h3⟩ := subRelP_true_decomp m numRepl hT t3.length t3 u3 (le_refl _) ha3
        rw [List.dropWhile_cons_of_pos hc3] at h ⊢
        rcases h3 with ⟨h3t, h3u⟩ | ⟨c4, t4, u4, h3t, h3u, hc4, _⟩
        · rw [h3t]
          rfl
        · rw [h3t, bdryHead_cons]
          rw [h3u, bdryHead_cons] at h
          exact h

theorem hasMatchP_lift (m : Bool → List Char → Option (List Char))
    (w : List Char) (b : Bool) (v : List Char)
    (h : hasMatchP m (w.foldl (fun _ c => isWordC c) b) v = true) :
    hasMatchP m b (w ++ v) = true := by
  rcases hx : hasMatchP m b (w ++ v) with _ | _
  · rw [hasMatchP_suffix m w b v hx] at h
    exact absurd h (by simp)
  · rfl

theorem foldl_flag_last (w : List Char) (c : Char) (b : Bool) :
    (w ++ [c]).foldl (fun _ d => isWordC d) b = isWordC c := by
  rw [List.foldl_append]
  rfl

theorem matchIntAt_split (s r : List Char) (h : matchIntAt false s = some r) :
    ∃ d, d ≠ [] ∧ s = d ++ r ∧ (r = [] ∨ ∃ h2 rt, r = h2 :: rt ∧ isWordC h2 = false) := by
  obtain ⟨d, hne, _, hs, hshape⟩ := matchIntAt_sound s r h
  exact ⟨d, hne, hs, hshape⟩

theorem matchFloatAt_split (s r : List Char) (h : matchFloatAt false s = some r) :
    ∃ d, d ≠ [] ∧ s = d ++ r ∧ (r = [] ∨ ∃ h2 rt, r = h2 :: rt ∧ isWordC h2 = false) := by
  obtain ⟨d1, d2, hne1, _, _, _, hs, hshape⟩ := matchFloatAt_sound s r h
  refine ⟨d1 ++ '.' :: d2, by simp, ?_, hshape⟩
  rw [hs]
  simp [List.append_assoc]

theorem matchIntAt_suffix (b : Bool) (c : Char) (t rest : List Char)
    (h : matchIntAt b (c :: t) = some rest) : rest <:+ t := by
  have hb := matchIntAt_some_false _ _ _ h
  subst hb
  obtain ⟨d, hne, hs, _⟩ := matchIntAt_split _ _ h
  exact suffix_of_consume hne hs

theorem matchFloatAt_suffix (b : Bool) (c : Char) (t rest : List Char)
    (h : matchFloatAt b (c :: t) = some rest) : rest <:+ t := by
  have hb := matchFloatAt_some_false _ _ _ h
  subst hb
  obtain ⟨d, hne, hs, _⟩ := matchFloatAt_split _ _ h
  exact suffix_of_consume hne hs

/-- Freeness of a boundary-guarded pattern is preserved by a later
boundary-guarded substitution. -/
theorem hasMatchP_transport_aux
    (mP mQ : Bool → List Char → Option (List Char))
    (hPT : ∀ s, mP true s = none)
    (hQT : ∀ s, mQ true s = none)
    (hPnil : mP false [] = none)
    (hQnil : mQ false [] = none)
    (hPstart : ∀ (b : Bool) (c : Char) (t r : List Char),
      mP b (c :: t) = some r → isDigitC c = true)
    (hOkT : ∀ (b : Bool) (x y : List Char), SubRelP mQ numRepl b x y →
      (mP false y).isSome = true → (mP false x).isSome = true)
    (hQfalse : ∀ (b : Bool) (s r : List Char), mQ b s = some r → b = false)
    (hQsound : ∀ (s r : List Char), mQ false s = some r →
      ∃ d, d ≠ [] ∧ s = d ++ r ∧ (r = [] ∨ ∃ h2 rt, r = h2 :: rt ∧ isWordC h2 = false)) :
    ∀ (n : Nat) (b : Bool) (x y : List Char), x.length ≤ n →
      SubRelP mQ numRepl b x y → hasMatchP mP b y = true → hasMatchP mP b x = true := by
  intro n
  induction n with
  | zero =>
    intro b x y hlen hrel h
    have h0 : x = [] := List.eq_nil_of_length_eq_zero (by omega)
    subst h0
    cases hrel with
    | nil => exact h
    | @rep b2 s2 rest u2 hm ha =>
      have hb := hQfalse _ _ _ hm
      subst hb
      rw [hQnil] at hm
      exact absurd hm (by simp)
  | succ n ih =>
    intro b x y hlen hrel h
    cases hrel with
    | nil => exact h
    | @keep b2 c t u ha =>
      rw [hasMatchP] at h ⊢
      rcases Bool.or_eq_true_iff.mp h with h1 | h2
      · have hb : b = false := by
          cases b
          · rfl
          · rw [hPT (c :: u)] at h1
            exact absurd h1 (by simp)
        subst hb
        exact Bool.or_eq_true_iff.mpr
          (Or.inl (hOkT false (c :: t) (c :: u) (SubRelP.keep false c ha) h1))
      · exact Bool.or_eq_true_iff.mpr
          (Or.inr (ih (isWordC c) t u (by simp at hlen; omega) ha h2))
    | @rep b2 x2 rest u2 hm ha =>
      rw [hasMatchP_numRepl_append mP hPstart u2 b] at h
      have hb := hQfalse _ _ _ hm
      subst hb
      obtain ⟨d, hne, hsplit, hrshape⟩ := hQsound _ _ hm
      rcases hrshape with hr0 | ⟨c2, t2, hr2, hw2⟩
      · subst hr0
        cases ha with
        | nil =>
          rw [hasMatchP, hPnil] at h
          exact absurd h (by simp)
        | @rep b3 s3 rest3 u3 hm3 ha3 =>
          rw [hQT] at hm3
          exact absurd hm3 (by simp)
      · subst hr2
        cases ha with
        | @rep b3 s3 rest3 u3 hm3 ha3 =>
          rw [hQT] at hm3
          exact absurd hm3 (by simp)
        | @keep b3 c3 t3 u3 ha3 =>
          rw [hw2] at ha3
          rw [hasMatchP] at h
          rcases Bool.or_eq_true_iff.mp h with h1 | h2
          · rcases hM : mP false (c2 :: u3) with _ | r
            · rw [hM] at h1
              exact absurd h1 (by simp)
            · have hdig := hPstart false c2 u3 r hM
              have hww := isWordC_of_digit c2 hdig
              rw [hw2] at hww
              exact absurd hww (by simp)
          · rw [hw2] at h2
            have hlt2 : t2.length ≤ n := by
              have hx2 : x.length = d.length + (t2.length + 1) := by
                rw [hsplit]
                simp
              have hd1 : 1 ≤ d.length := List.length_pos.mpr hne
              omega
            have h4 := ih false t2 u3 hlt2 ha3 h2
            rw [hsplit, show d ++ (c2 :: t2) = (d ++ [c2]) ++ t2 by simp]
            refine hasMatchP_lift mP (d ++ [c2]) false t2 ?_
            rw [foldl_flag_last, hw2]
            exact h4

/-- A boundary-guarded substitution leaves no match of its own pattern in its
output. -/
theorem scanSubP_free_aux
    (m : Bool → List Char → Option (List Char))
    (hT : ∀ s, m true s = none)
    (hnil : m false [] = none)
    (hstart : ∀ (b : Bool) (c : Char) (t r : List Char),
      m b (c :: t) = some r → isDigitC c = true)
    (hOkT : ∀ (b : Bool) (x y : List Char), SubRelP m numRepl b x y →
      (m false y).isSome = true → (m false x).isSome = true)
    (hfalse : ∀ (b : Bool) (s r : List Char), m b s = some r → b = false)
    (hsound : ∀ (s r : List Char), m false s = some r →
      ∃ d, d ≠ [] ∧ s = d ++ r ∧ (r = [] ∨ ∃ h2 rt, r = h2 :: rt ∧ isWordC h2 = false))
    (hsuf : ∀ (b : Bool) (c : Char) (t rest : List Char),
      m b (c :: t) = some rest → rest <:+ t) :
    ∀ (n : Nat) (b : Bool) (s : List Char), s.length ≤ n →
      hasMatchP m b (scanSubP m numRepl b s) = false := by
  intro n
  induction n with
  | zero =>
    intro b s hs
    have h0 : s = [] := List.eq_nil_of_length_eq_zero (by omega)
    subst h0
    rw [show scanSubP m numRepl b [] = [] from rfl, hasMatchP]
    cases b
    · rw [hnil]
      rfl
    · rw [hT]
      rfl
  | succ n ih =>
    intro b s hs
    cases s with
    | nil =>
      rw [show scanSubP m numRepl b [] = [] from rfl, hasMatchP]
      cases b
      · rw [hnil]
        rfl
      · rw [hT]
        rfl
    | cons c t =>
      rcases hm : m b (c :: t) with _ | rest
      · rw [scanSubP_cons_none m numRepl b c t hm, hasMatchP]
        have h2 := ih (isWordC c) t (by simp at hs; omega)
        rw [h2, Bool.or_false]
        rcases hx : (m b (c :: scanSubP m numRepl (isWordC c) t)).isSome with _ | _
        · rfl
        · have hb : b = false := by
            cases b
            · rfl
            · rw [hT] at hx
              exact absurd hx (by simp)
          subst hb
          have h3 := hOkT false (c :: t) _
            (SubRelP.keep false c (subRelP_rel m numRepl hsuf (isWordC c) t)) hx
          rw [hm] at h3
          exact absurd h3 (by simp)
      · have hb := hfalse _ _ _ hm
        subst hb
        have hsuf2 := hsuf false c t rest hm
        rw [scanSubP_cons_some m numRepl false c t rest hm hsuf2,
          hasMatchP_numRepl_append m hstart _ false]
        obtain ⟨d, hne, hsplit, hrshape⟩ := hsound _ _ hm
        rcases hrshape with hr0 | ⟨c2, t2, hr2, hw2⟩
        · subst hr0
          rw [show scanSubP m numRepl true [] = [] from rfl, hasMatchP, hnil]
          rfl
        · subst hr2
          rw [scanSubP_cons_none m numRepl true c2 t2 (hT _), hasMatchP, hw2]
          have hlt2 : t2.length ≤ n := by
            have hL := List.IsSuffix.length_le hsuf2
            simp at hL hs
            omega
          rw [ih false t2 hlt2, Bool.or_false]
          rcases hx : (m false (c2 :: scanSubP m numRepl false t2)).isSome with _ | _
          · rfl
          · rcases hM : m false (c2 :: scanSubP m numRepl false t2) with _ | r
            · rw [hM] at hx
              exact absurd hx (by simp)
            · have hdig := hstart false c2 _ r hM
              have hww := isWordC_of_digit c2 hdig
              rw [hw2] at hww
              exact absurd hww (by simp)

/-- `re.sub` is the identity on a string free of its pattern. -/
theorem scanSub_id (m : List Char → Option (List Char)) (repl : List Char) :
    ∀ (s : List Char), hasMatch m s = false → scanSub m repl s = s := by
  intro s
  induction s with
  | nil => exact fun _ => rfl
  | cons c t ih =>
    intro h
    rw [hasMatch, Bool.or_eq_false_iff] at h
    obtain ⟨h1, h2⟩ := h
    have hm : m (c :: t) = none := by
      rcases hM : m (c :: t) with _ | r
      · rfl
      · rw [hM] at h1
        exact absurd h1 (by simp)
    rw [scanSub_cons_none m repl c t hm, ih h2]

theorem scanSubP_id (m : Bool → List Char → Option (List Char)) (repl : List Char) :
    ∀ (s : List Char) (b : Bool), hasMatchP m b s = false → scanSubP m repl b s = s := by
  intro s
  induction s with
  | nil => exact fun _ _ => rfl
  | cons c t ih =>
    intro b h
    rw [hasMatchP, Bool.or_eq_false_iff] at h
    obtain ⟨h1, h2⟩ := h
    have hm : m b (c :: t) = none := by
      rcases hM : m b (c :: t) with _ | r
      · rfl
      · rw [hM] at h1
        exact absurd h1 (by simp)
    rw [scanSubP_cons_none m repl b c t hm, ih (isWordC c) h2]

theorem matchUuidAt_suffix (c : Char) (t r : List Char)
    (h : matchUuidAt (c :: t) = some r) : r <:+ t := by
  have h2 : chompSeq ((isLowerHexC, 7 + 1) :: uuidSpecs.tail) (c :: t) = some r := h
  obtain ⟨w, hne, hsplit⟩ := chompSeq_head_consume isLowerHexC 7 uuidSpecs.tail (c :: t) r h2
  exact suffix_of_consume hne hsplit

theorem matchTsAt_suffix (c : Char) (t r : List Char)
    (h : matchTsAt (c :: t) = some r) : r <:+ t := by
  have h2 : chompSeq ((isDigitC, 3 + 1) :: tsSpecs.tail) (c :: t) = some r := h
  obtain ⟨w, hne, hsplit⟩ := chompSeq_head_consume isDigitC 3 tsSpecs.tail (c :: t) r h2
  exact suffix_of_consume hne hsplit

theorem matchAddrAt_suffix (c : Char) (t r : List Char)
    (h : matchAddrAt (c :: t) = some r) : r <:+ t := by
  obtain ⟨w, hne, hsplit⟩ := matchAddrAt_sound (c :: t) r h
  exact suffix_of_consume hne hsplit

theorem matchIntAt_falsify (b : Bool) (s r : List Char)
    (h : matchIntAt b s = some r) : matchIntAt false s = some r := by
  rw [← matchIntAt_some_false b s r h]
  exact h

theorem matchFloatAt_falsify (b : Bool) (s r : List Char)
    (h : matchFloatAt b s = some r) : matchFloatAt false s = some r := by
  rw [← matchFloatAt_some_false b s r h]
  exact h

theorem uuidRepl_startAlpha : ∀ c ∈ uuidRepl, startAlpha c = false := by decide

theorem tsRepl_startAlpha : ∀ c ∈ tsRepl, startAlpha c = false := by decide

theorem addrRepl_startAlpha : ∀ c ∈ addrRepl, startAlpha c = false := by decide

theorem numRepl_startAlpha : ∀ c ∈ numRepl, startAlpha c = false := by decide

theorem floatFireP (mQ : Bool → List Char → Option (List Char))
    (hQT : ∀ s, mQ true s = none) (b : Bool) (x y : List Char)
    (hrel : SubRelP mQ numRepl b x y) (h : (matchFloatAt false y).isSome = true) :
    (matchFloatAt false x).isSome = true := by
  rw [matchFloatAt_isSome] at h ⊢
  exact floatOk_transport mQ hQT b x y hrel h

theorem intFireP (mQ : Bool → List Char → Option (List Char))
    (hQT : ∀ s, mQ true s = none) (b : Bool) (x y : List Char)
    (hrel : SubRelP mQ numRepl b x y) (h : (matchIntAt false y).isSome = true) :
    (matchIntAt false x).isSome = true := by
  rw [matchIntAt_isSome] at h ⊢
  exact intOk_transport mQ hQT b x y hrel h

theorem subFloat_free (b : Bool) (x : List Char) :
    hasMatchP matchFloatAt b (subFloat b x) = false :=
  scanSubP_free_aux matchFloatAt matchFloatAt_true rfl matchFloatAt_start
    (floatFireP matchFloatAt matchFloatAt_true) matchFloatAt_some_false
    matchFloatAt_split matchFloatAt_suffix x.length b x (le_refl _)

theorem subInt_free (b : Bool) (x : List Char) :
    hasMatchP matchIntAt b (subInt b x) = false :=
  scanSubP_free_aux matchIntAt matchIntAt_true rfl matchIntAt_start
    (intFireP matchIntAt matchIntAt_true) matchIntAt_some_false
    matchIntAt_split matchIntAt_suffix x.length b x (le_refl _)

theorem subInt_keeps_float_free (b : Bool) (x : List Char)
    (hfree : hasMatchP matchFloatAt b x = false) :
    hasMatchP matchFloatAt b (subInt b x) = false := by
  rcases hy : hasMatchP matchFloatAt b (subInt b x) with _ | _
  · rfl
  · have h2 := hasMatchP_transport_aux matchFloatAt matchIntAt matchFloatAt_true
      matchIntAt_true rfl rfl matchFloatAt_start
      (floatFireP matchIntAt matchIntAt_true) matchIntAt_some_false matchIntAt_split
      x.length b x (subInt b x) (le_refl _)
      (subRelP_rel matchIntAt numRepl matchIntAt_suffix b x) hy
    rw [hfree] at h2
    exact absurd h2 (by simp)

/-- Freeness of a non-guarded pattern is preserved by a later non-guarded
substitution stage. -/
theorem hasMatch_free_scanSub (m Q : List Char → Option (List Char)) (repl : List Char)
    (hfire : ∀ {x y : List Char}, SubRel Q repl x y →
      (m y).isSome = true → (m x).isSome = true)
    (hstart : ∀ (c : Char) (t r : List Char), m (c :: t) = some r → startAlpha c = true)
    (hreplchars : ∀ c ∈ repl, startAlpha c = false)
    (hQnil : Q [] = none)
    (hsufQ : ∀ (c : Char) (t rest : List Char), Q (c :: t) = some rest → rest <:+ t)
    (x : List Char) (hfree : hasMatch m x = false) :
    hasMatch m (scanSub Q repl x) = false := by
  rcases hy : hasMatch m (scanSub Q repl x) with _ | _
  · rfl
  · have h2 := hasMatch_transport m Q repl hfire hstart hreplchars hQnil hsufQ
      (subRel_scanSub Q repl hsufQ x) hy
    rw [hfree] at h2
    exact absurd h2 (by simp)

/-- Freeness of a non-guarded pattern is preserved by a later boundary-guarded
substitution stage. -/
theorem hasMatch_free_scanSubP (m : List Char → Option (List Char))
    (mQ : Bool → List Char → Option (List Char))
    (hfire : ∀ {x y : List Char}, SubRel (mQ false) numRepl x y →
      (m y).isSome = true → (m x).isSome = true)
    (hstart : ∀ (c : Char) (t r : List Char), m (c :: t) = some r → startAlpha c = true)
    (hQfalse : ∀ (b : Bool) (s r : List Char), mQ b s = some r → mQ false s = some r)
    (hQnil : mQ false [] = none)
    (hsufQ : ∀ (b : Bool) (c : Char) (t rest : List Char),
      mQ b (c :: t) = some rest → rest <:+ t)
    (b : Bool) (x : List Char) (hfree : hasMatch m x = false) :
    hasMatch m (scanSubP mQ numRepl b x) = false := by
  rcases hy : hasMatch m (scanSubP mQ numRepl b x) with _ | _
  · rfl
  · have h2 := hasMatch_transport m (mQ false) numRepl hfire hstart numRepl_startAlpha
      hQnil (fun c t rest h => hsufQ false c t rest h)
      (subRelP_scanSubP mQ numRepl hQfalse hsufQ b x) hy
    rw [hfree] at h2
    exact absurd h2 (by simp)

theorem subUuid_free (x : List Char) : hasMatch matchUuidAt (subUuid x) = false :=
  scanSub_free matchUuidAt uuidRepl
    (fun hrel h => fire_transport_uuid matchUuidAt uuidRepl ⟨_, rfl⟩ hrel h)
    matchUuidAt_startAlpha uuidRepl_startAlpha rfl matchUuidAt_suffix x

theorem subTs_free (x : List Char) : hasMatch matchTsAt (subTs x) = false :=
  scanSub_free matchTsAt tsRepl
    (fun hrel h => fire_transport_ts matchTsAt tsRepl ⟨_, rfl⟩ hrel h)
    matchTsAt_startAlpha tsRepl_startAlpha rfl matchTsAt_suffix x

theorem subAddr_free (x : List Char) : hasMatch matchAddrAt (subAddr x) = false :=
  scanSub_free matchAddrAt addrRepl
    (fun hrel h => fire_transport_addr matchAddrAt addrRepl ⟨_, rfl⟩ hrel h)
    matchAddrAt_startAlpha addrRepl_startAlpha rfl matchAddrAt_suffix x

/-- The output of `normalize_failure_fingerprint` contains no match of any of
the five `NORMALIZATION_PATTERNS`. -/
theorem normalizeFingerprintL_free (l : List Char) :
    hasMatch matchUuidAt (normalizeFingerprintL l) = false ∧
    hasMatch matchTsAt (normalizeFingerprintL l) = false ∧
    hasMatch matchAddrAt (normalizeFingerprintL l) = false ∧
    hasMatchP matchFloatAt false (normalizeFingerprintL l) = false ∧
    hasMatchP matchIntAt false (normalizeFingerprintL l) = false := by
  have hu1 : hasMatch matchUuidAt (subUuid l) = false := subUuid_free l
  have hu2 : hasMatch matchUuidAt (subTs (subUuid l)) = false :=
    hasMatch_free_scanSub matchUuidAt matchTsAt tsRepl
      (fun hrel h => fire_transport_uuid matchTsAt tsRepl ⟨_, rfl⟩ hrel h)
      matchUuidAt_startAlpha tsRepl_startAlpha rfl matchTsAt_suffix _ hu1
  have hu3 : hasMatch matchUuidAt (subAddr (subTs (subUuid l))) = false :=
    hasMatch_free_scanSub matchUuidAt matchAddrAt addrRepl
      (fun hrel h => fire_transport_uuid matchAddrAt addrRepl ⟨_, rfl⟩ hrel h)
      matchUuidAt_startAlpha addrRepl_startAlpha rfl matchAddrAt_suffix _ hu2
  have hu4 : hasMatch matchUuidAt (subFloat false (subAddr (subTs (subUuid l)))) = false :=
    hasMatch_free_scanSubP matchUuidAt matchFloatAt
      (fun hrel h => fire_transport_uuid (matchFloatAt false) numRepl ⟨_, rfl⟩ hrel h)
      matchUuidAt_startAlpha matchFloatAt_falsify rfl matchFloatAt_suffix false _ hu3
  have hu5 : hasMatch matchUuidAt (normalizeFingerprintL l) = false :=
    hasMatch_free_scanSubP matchUuidAt matchIntAt
      (fun hrel h => fire_transport_uuid (matchIntAt false) numRepl ⟨_, rfl⟩ hrel h)
      matchUuidAt_startAlpha matchIntAt_falsify rfl matchIntAt_suffix false _ hu4
  have ht2 : hasMatch matchTsAt (subTs (subUuid l)) = false := subTs_free _
  have ht3 : hasMatch matchTsAt (subAddr (subTs (subUuid l))) = false :=
    hasMatch_free_scanSub matchTsAt matchAddrAt addrRepl
      (fun hrel h => fire_transport_ts matchAddrAt addrRepl ⟨_, rfl⟩ hrel h)
      matchTsAt_startAlpha addrRepl_startAlpha rfl matchAddrAt_suffix _ ht2
  have ht4 : hasMatch matchTsAt (subFloat false (subAddr (subTs (subUuid l)))) = false :=
    hasMatch_free_scanSubP matchTsAt matchFloatAt
      (fun hrel h => fire_transport_ts (matchFloatAt false) numRepl ⟨_, rfl⟩ hrel h)
      matchTsAt_startAlpha matchFloatAt_falsify rfl matchFloatAt_suffix false _ ht3
  have ht5 : hasMatch matchTsAt (normalizeFingerprintL l) = false :=
    hasMatch_free_scanSubP matchTsAt matchIntAt
      (fun hrel h => fire_transport_ts (matchIntAt false) numRepl ⟨_, rfl⟩ hrel h)
      matchTsAt_startAlpha matchIntAt_falsify rfl matchIntAt_suffix false _ ht4
  have ha3 : hasMatch matchAddrAt (subAddr (subTs (subUuid l))) = false := subAddr_free _
  have ha4 : hasMatch matchAddrAt (subFloat false (subAddr (subTs (subUuid l)))) = false :=
    hasMatch_free_scanSubP matchAddrAt matchFloatAt
      (fun hrel h => fire_transport_addr (matchFloatAt false) numRepl ⟨_, rfl⟩ hrel h)
      matchAddrAt_startAlpha matchFloatAt_falsify rfl matchFloatAt_suffix false _ ha3
  have ha5 : hasMatch matchAddrAt (normalizeFingerprintL l) = false :=
    hasMatch_free_scanSubP matchAddrAt matchIntAt
      (fun hrel h => fire_transport_addr (matchIntAt false) numRepl ⟨_, rfl⟩ hrel h)
      matchAddrAt_startAlpha matchIntAt_falsify rfl matchIntAt_suffix false _ ha4
  have hf4 : hasMatchP matchFloatAt false (subFloat false (subAddr (subTs (subUuid l)))) =
      false := subFloat_free false _
  have hf5 : hasMatchP matchFloatAt false (normalizeFingerprintL l) = false :=
    subInt_keeps_float_free false _ hf4
  have hi5 : hasMatchP matchIntAt false (normalizeFingerprintL l) = false :=
    subInt_free false _
  exact ⟨hu5, ht5, ha5, hf5, hi5⟩

theorem normalizeFingerprintL_idem (l : List Char) :
    normalizeFingerprintL (normalizeFingerprintL l) = normalizeFingerprintL l := by
  obtain ⟨h1, h2, h3, h4, h5⟩ := normalizeFingerprintL_free l
  show subInt false (subFloat false (subAddr (subTs (subUuid (normalizeFingerprintL l))))) =
    normalizeFingerprintL l
  rw [show subUuid (normalizeFingerprintL l) = normalizeFingerprintL l from
    scanSub_id matchUuidAt uuidRepl _ h1]
  rw [show subTs (normalizeFingerprintL l) = normalizeFingerprintL l from
    scanSub_id matchTsAt tsRepl _ h2]
  rw [show subAddr (normalizeFingerprintL l) = normalizeFingerprintL l from
    scanSub_id matchAddrAt addrRepl _ h3]
  rw [show subFloat false (normalizeFingerprintL l) = normalizeFingerprintL l from
    scanSubP_id matchFloatAt numRepl _ false h4]
  exact scanSubP_id matchIntAt numRepl _ false h5

/-- C1: fingerprint normalization is idempotent — for every input string `x`,
`normalize_failure_fingerprint (normalize_failure_fingerprint x) =
normalize_failure_fingerprint x`. -/
theorem c1_normalize_idempotent (x : String) :
    normalize_failure_fingerprint (normalize_failure_fingerprint x) =
      normalize_failure_fingerprint x := by
  show (⟨normalizeFingerprintL (normalizeFingerprintL x.data)⟩ : String) =
    ⟨normalizeFingerprintL x.data⟩
  rw [normalizeFingerprintL_idem]

end CIWatch
